import Mathlib

/-!
Shallow embedding of the chunk-to-geometry alignment engine of the
`mandarine` repository, covering:

* `app/services/rag/lightrag_highlighter.py` (`LightRAGHighlighter`):
  skeleton construction (`_load_pdf`), per-word normalization
  (`_make_skeleton_segment`), the longest-match locator and area production
  (`find_all_highlights`), the percentage mapper (`_words_to_areas`) and the
  region merger (`_merge_areas`);
* `app/services/rag/enhanced_highlighter.py` (`EnhancedPDFHighlighter`):
  `_clean_text`, the sliding-window token matcher with page-hint narrowing
  (`find_all_highlights`) and its `_merge_areas`.

Python strings are embedded as lists of Unicode codepoints (`List Nat`);
Python floats are embedded as exact rationals (`ℚ`).  PyMuPDF's
`page.get_text("words")` output is embedded as a per-page list of raw words,
each carrying its absolute bounding box and its text.
-/

/-- Codepoints matched by Python's regex `\s` on `str` (exactly the
codepoints `c` with `chr(c).isspace()`): ASCII whitespace, the C0
separators, NEL, NBSP and the Unicode space characters.  The zero-width
space U+200B and the byte-order mark U+FEFF are *not* in this set. -/
def isPySpace (c : Nat) : Bool :=
  decide (0x09 ≤ c ∧ c ≤ 0x0D) || decide (0x1C ≤ c ∧ c ≤ 0x1F) ||
  decide (c = 0x20) || decide (c = 0x85) || decide (c = 0xA0) ||
  decide (c = 0x1680) || decide (0x2000 ≤ c ∧ c ≤ 0x200A) ||
  decide (c = 0x2028) || decide (c = 0x2029) || decide (c = 0x202F) ||
  decide (c = 0x205F) || decide (c = 0x3000)

/-- The context-free part of Python `str.lower`, restricted to the
codepoint ranges exercised in this development: ASCII capitals `A`-`Z`,
Greek capitals `Α`-`Ω` (U+0391-U+03A9, the unassigned U+03A2 excluded) and
fullwidth capitals `Ａ`-`Ｚ` map down by 32; every other codepoint
appearing in this file is a fixed point of `str.lower`.  The capital sigma
U+03A3 is the one codepoint CPython lowers context-sensitively; strings are
lowered by `pyLowerStr`, which routes it through `handleCapitalSigma`. -/
def pyLowerChar (c : Nat) : Nat :=
  if 65 ≤ c ∧ c ≤ 90 then c + 32
  else if 0x391 ≤ c ∧ c ≤ 0x3A9 ∧ c ≠ 0x3A2 then c + 32
  else if 0xFF21 ≤ c ∧ c ≤ 0xFF3A then c + 32
  else c

/-- Cased codepoints (Unicode property `Cased`), restricted to the
codepoints exercised in this development: ASCII letters, Greek letters
(upper and lower, including final sigma), fullwidth letters. -/
def isPyCased (c : Nat) : Bool :=
  decide (65 ≤ c ∧ c ≤ 90) || decide (97 ≤ c ∧ c ≤ 122) ||
  decide (0x391 ≤ c ∧ c ≤ 0x3A9 ∧ c ≠ 0x3A2) || decide (0x3B1 ≤ c ∧ c ≤ 0x3C9) ||
  decide (0xFF21 ≤ c ∧ c ≤ 0xFF3A) || decide (0xFF41 ≤ c ∧ c ≤ 0xFF5A)

/-- Case-ignorable codepoints (Unicode property `Case_Ignorable`),
restricted to the codepoints exercised in this development: the apostrophe
and the format characters U+200B-U+200D and U+FEFF.  Whitespace is neither
cased nor case-ignorable. -/
def isPyCaseIgnorable (c : Nat) : Bool :=
  decide (c = 0x27) || decide (c = 0x200B) || decide (c = 0x200C) ||
  decide (c = 0x200D) || decide (c = 0xFEFF)

/-- CPython's `handle_capital_sigma` (Objects/unicodeobject.c): U+03A3
lowers to final sigma ς when the nearest non-case-ignorable codepoint
before it exists and is cased, and the nearest non-case-ignorable codepoint
after it is absent or not cased; otherwise it lowers to σ.  `before` is the
original text preceding the sigma (in order), `after` the text following
it. -/
def handleCapitalSigma (before after : List Nat) : Nat :=
  let b := before.reverse.dropWhile (fun c => isPyCaseIgnorable c)
  let precededByCased :=
    match b with
    | [] => false
    | c :: _ => isPyCased c
  if precededByCased then
    match after.dropWhile (fun c => isPyCaseIgnorable c) with
    | [] => 0x3C2
    | c :: _ => if isPyCased c then 0x3C3 else 0x3C2
  else 0x3C3

/-- Python `str.lower` over a whole string: every codepoint is lowered by
the context-free table except U+03A3, which CPython treats with the
Final_Sigma rule, reading the original text on both sides. -/
def pyLowerAux (before : List Nat) : List Nat → List Nat
  | [] => []
  | c :: rest =>
    (if c = 0x3A3 then handleCapitalSigma before rest else pyLowerChar c) ::
      pyLowerAux (before ++ [c]) rest

/-- Python `str.lower`. -/
def pyLowerStr (s : List Nat) : List Nat := pyLowerAux [] s

/-- `LightRAGHighlighter._make_skeleton_segment`: `text.lower()` followed by
`re.sub(r'\s+', '', text)`.  Substituting the empty string for every maximal
`\s` run is the same as deleting every `\s` codepoint. -/
def makeSkeletonSegment (s : List Nat) : List Nat :=
  List.filter (fun c => !(isPySpace c)) (pyLowerStr s)

/-- A word as extracted by `page.get_text("words")`: the first four tuple
components are the absolute bounding box `(x0, y0, x1, y1)`, the fifth is
the word's text. -/
structure RawWord where
  x0 : ℚ
  y0 : ℚ
  x1 : ℚ
  y1 : ℚ
  text : List Nat
deriving DecidableEq

/-- A PDF page: its `rect.width`, `rect.height` and the ordered list of
words that `get_text("words")` yields for it. -/
structure PDFPage where
  width : ℚ
  height : ℚ
  words : List RawWord
deriving DecidableEq

/-- A document is its ordered list of pages. -/
abbrev PDFDoc := List PDFPage

/-- An entry of `LightRAGHighlighter.global_words`: the owning page index,
the copied bounding box `w[:4]` and the raw text `w[4]`. -/
structure GlobalWord where
  page : Nat
  x0 : ℚ
  y0 : ℚ
  x1 : ℚ
  y1 : ℚ
  text : List Nat
deriving DecidableEq

/-- The three parallel structures built by `LightRAGHighlighter._load_pdf`:
`global_words`, `doc_skeleton` and `char_to_word_idx`. -/
structure SkeletonIndex where
  globalWords : List GlobalWord
  docSkeleton : List Nat
  charToWordIdx : List Nat
deriving DecidableEq

/-- One iteration of the inner loop of `_load_pdf`: normalize the word,
skip it entirely when the normalization is empty, otherwise append the word
to `global_words`, its normalization to `doc_skeleton`, and one copy of the
new word's index per appended character to `char_to_word_idx`. -/
def loadWordStep (st : SkeletonIndex) (pageIdx : Nat) (w : RawWord) : SkeletonIndex :=
  let cleanText := makeSkeletonSegment w.text
  if cleanText = [] then st
  else
    { globalWords := st.globalWords ++ [⟨pageIdx, w.x0, w.y0, w.x1, w.y1, w.text⟩]
      docSkeleton := st.docSkeleton ++ cleanText
      charToWordIdx := st.charToWordIdx ++ List.replicate cleanText.length st.globalWords.length }

/-- The inner loop of `_load_pdf` over the words of one page. -/
def loadPageWords (pageIdx : Nat) (st : SkeletonIndex) : List RawWord → SkeletonIndex
  | [] => st
  | w :: rest => loadPageWords pageIdx (loadWordStep st pageIdx w) rest

/-- The outer loop of `_load_pdf`: `for page_idx, page in enumerate(self.doc)`. -/
def loadPdfFrom (pageIdx : Nat) (st : SkeletonIndex) : PDFDoc → SkeletonIndex
  | [] => st
  | pg :: rest => loadPdfFrom (pageIdx + 1) (loadPageWords pageIdx st pg.words) rest

/-- `LightRAGHighlighter._load_pdf`, from empty initial state. -/
def loadPdf (doc : PDFDoc) : SkeletonIndex :=
  loadPdfFrom 0 ⟨[], [], []⟩ doc

/-- The structural invariant of a skeleton index: the skeleton text and the
character-to-word map have the same length, and every map entry is a valid
index into `global_words`. -/
def SkeletonInv (st : SkeletonIndex) : Prop :=
  st.docSkeleton.length = st.charToWordIdx.length ∧
  ∀ i ∈ st.charToWordIdx, i < st.globalWords.length

/-- A highlight rectangle in percentage coordinates, as the `HighlightArea`
dataclass shared by the highlighter modules. -/
structure HighlightArea where
  pageIndex : Nat
  left : ℚ
  top : ℚ
  width : ℚ
  height : ℚ
deriving DecidableEq

/-- Python `round` to the nearest integer with banker's rounding (ties go
to the even integer), on exact rationals. -/
def pyRoundHalfEven (x : ℚ) : ℤ :=
  let n := ⌊x⌋
  let f := x - (n : ℚ)
  if f < 1/2 then n
  else if 1/2 < f then n + 1
  else if Even n then n else n + 1

/-- Python `round(x, 1)`, on exact rationals. -/
def pyRound1 (x : ℚ) : ℚ := ((pyRoundHalfEven (10 * x) : ℤ) : ℚ) / 10

/-- The comparison underlying the sort key
`lambda x: (x.pageIndex, round(x.top, 1), x.left)` used by both
`_merge_areas` implementations: lexicographic order on the key triple. -/
def areaKeyLe (a b : HighlightArea) : Prop :=
  a.pageIndex < b.pageIndex ∨
  (a.pageIndex = b.pageIndex ∧
    (pyRound1 a.top < pyRound1 b.top ∨
      (pyRound1 a.top = pyRound1 b.top ∧ a.left ≤ b.left)))

instance (a b : HighlightArea) : Decidable (areaKeyLe a b) := by
  unfold areaKeyLe; infer_instance

/-- Boolean form of `areaKeyLe`. -/
def areaLe (a b : HighlightArea) : Bool := decide (areaKeyLe a b)

/-- Stable insertion used to model Python's stable `list.sort(key=...)`:
`x` is placed in front of the first already-sorted element that is not
strictly smaller than it. -/
def insertArea (x : HighlightArea) : List HighlightArea → List HighlightArea
  | [] => [x]
  | y :: ys => if areaLe x y then x :: y :: ys else y :: insertArea x ys

/-- Model of `areas.sort(key=lambda x: (x.pageIndex, round(x.top, 1), x.left))`.
Python's sort is a stable sort with respect to this key; since a stable sort
of a list by a total preorder is unique, this insertion sort computes the
same list. -/
def sortAreas : List HighlightArea → List HighlightArea
  | [] => []
  | x :: xs => insertArea x (sortAreas xs)

/-- The rectangle produced when the merger absorbs `nxt` into the
accumulator `cur` (identical in `LightRAGHighlighter._merge_areas` and
`EnhancedPDFHighlighter._merge_areas`): left and top are the minima, the
right edge is the maximum of the two right edges, and the height is the
maximum of the two heights. -/
def mergeCombine (cur nxt : HighlightArea) : HighlightArea :=
  { pageIndex := cur.pageIndex
    left := min cur.left nxt.left
    top := min cur.top nxt.top
    width := max (cur.left + cur.width) (nxt.left + nxt.width) - min cur.left nxt.left
    height := max cur.height nxt.height }

/-- The merge condition of `LightRAGHighlighter._merge_areas`: same page,
vertical offset at most 1.5 (the code flushes when `> 1.5`), horizontal gap
at most 20.0 (the code flushes when `> 20.0`). -/
def lightragCanMerge (cur nxt : HighlightArea) : Bool :=
  decide (cur.pageIndex = nxt.pageIndex) &&
  decide (|cur.top - nxt.top| ≤ 3/2) &&
  decide (nxt.left - (cur.left + cur.width) ≤ 20)

/-- The merge condition of `EnhancedPDFHighlighter._merge_areas`: same page,
vertical offset strictly below 1.5, horizontal gap strictly below 4.0. -/
def enhancedCanMerge (cur nxt : HighlightArea) : Bool :=
  decide (cur.pageIndex = nxt.pageIndex) &&
  decide (|cur.top - nxt.top| < 3/2) &&
  decide (nxt.left - (cur.left + cur.width) < 4)

/-- The accumulator walk shared by both `_merge_areas` implementations,
parameterized by the merge condition: absorb the next area into the current
accumulator when the condition holds, otherwise flush the accumulator. -/
def mergeLoop (canMerge : HighlightArea → HighlightArea → Bool) :
    HighlightArea → List HighlightArea → List HighlightArea
  | cur, [] => [cur]
  | cur, nxt :: rest =>
    if canMerge cur nxt then mergeLoop canMerge (mergeCombine cur nxt) rest
    else cur :: mergeLoop canMerge nxt rest

/-- `_merge_areas`: return `[]` for no areas, otherwise sort by
`(pageIndex, round(top, 1), left)` and run the accumulator walk. -/
def mergeAreasWith (canMerge : HighlightArea → HighlightArea → Bool)
    (areas : List HighlightArea) : List HighlightArea :=
  match sortAreas areas with
  | [] => []
  | a :: rest => mergeLoop canMerge a rest

/-- `LightRAGHighlighter._merge_areas`. -/
def lightragMergeAreas : List HighlightArea → List HighlightArea :=
  mergeAreasWith lightragCanMerge

/-- `EnhancedPDFHighlighter._merge_areas`. -/
def enhancedMergeAreas : List HighlightArea → List HighlightArea :=
  mergeAreasWith enhancedCanMerge

/-- The percentage-bounds invariant of a `HighlightArea`. -/
def AreaInBounds (a : HighlightArea) : Prop :=
  0 ≤ a.left ∧ a.left ≤ 100 ∧ 0 ≤ a.top ∧ a.top ≤ 100 ∧
  a.left + a.width ≤ 100 ∧ a.top + a.height ≤ 100

/-- The fallback page used when a word's page index is looked up: it never
matters on the code paths modelled here (Python would raise instead), but a
total function needs it. -/
def defaultPage : PDFPage := ⟨1, 1, []⟩

/-- Conversion of one absolute bounding box to a percentage rectangle, as
done by `LightRAGHighlighter._words_to_areas` (and, with the same formulas,
by `EnhancedPDFHighlighter.find_all_highlights`):
`left = x0/pw*100`, `top = y0/ph*100`, `width = (x1-x0)/pw*100`,
`height = (y1-y0)/ph*100`. -/
def bboxToArea (doc : PDFDoc) (pageIdx : Nat) (x0 y0 x1 y1 : ℚ) : HighlightArea :=
  let pg := doc.getD pageIdx defaultPage
  { pageIndex := pageIdx
    left := x0 / pg.width * 100
    top := y0 / pg.height * 100
    width := (x1 - x0) / pg.width * 100
    height := (y1 - y0) / pg.height * 100 }

/-- `LightRAGHighlighter._words_to_areas`. -/
def wordToArea (doc : PDFDoc) (w : GlobalWord) : HighlightArea :=
  bboxToArea doc w.page w.x0 w.y0 w.x1 w.y1

/-- `LightRAGHighlighter._words_to_areas` over a word list. -/
def wordsToAreas (doc : PDFDoc) (ws : List GlobalWord) : List HighlightArea :=
  ws.map (wordToArea doc)

/-- A word's bounding box lies inside its page rectangle, and the page's
dimensions are positive. -/
def WordInPage (doc : PDFDoc) (w : GlobalWord) : Prop :=
  let pg := doc.getD w.page defaultPage
  0 < pg.width ∧ 0 < pg.height ∧
  0 ≤ w.x0 ∧ w.x0 ≤ w.x1 ∧ w.x1 ≤ pg.width ∧
  0 ≤ w.y0 ∧ w.y0 ≤ w.y1 ∧ w.y1 ≤ pg.height

/-- One step of `page_counts[a.pageIndex] = page_counts.get(a.pageIndex, 0) + 1`
on a Python dict modelled as an insertion-ordered association list: an
existing key is updated in place, a new key is appended. -/
def bumpCount : List (Nat × Nat) → Nat → List (Nat × Nat)
  | [], p => [(p, 1)]
  | (q, n) :: rest, p => if q = p then (q, n + 1) :: rest else (q, n) :: bumpCount rest p

/-- The `page_counts` dict built by walking the merged areas in order. -/
def pageCountsOf (areas : List HighlightArea) : List (Nat × Nat) :=
  areas.foldl (fun cs a => bumpCount cs a.pageIndex) []

/-- Python's `max(iterable, key=...)` keeps the first element attaining the
maximum: a later element replaces the current best only when its value is
strictly greater. -/
def pyMaxPair (best : Nat × Nat) : List (Nat × Nat) → Nat × Nat
  | [] => best
  | kv :: rest => pyMaxPair (if best.2 < kv.2 then kv else best) rest

/-- `max(page_counts, key=page_counts.get) if page_counts else dflt`
(`dflt` is `0` in `LightRAGHighlighter` and `search_pages[0]` in
`EnhancedPDFHighlighter`). -/
def primaryPageOr (dflt : Nat) (areas : List HighlightArea) : Nat :=
  match pageCountsOf areas with
  | [] => dflt
  | c :: rest => (pyMaxPair c rest).1

/-- Number of areas lying on page `p`. -/
def countPage (p : Nat) (areas : List HighlightArea) : Nat :=
  areas.countP (fun a => decide (a.pageIndex = p))

/-- Lookup in the association list (0 when absent). -/
def cntIn : List (Nat × Nat) → Nat → Nat
  | [], _ => 0
  | (q, n) :: rest, p => if q = p then n else cntIn rest p

/-- Length of the common run of equal elements at the heads of two lists. -/
def commonRun : List Nat → List Nat → Nat
  | a :: as, b :: bs => if a = b then commonRun as bs + 1 else 0
  | _, _ => 0

/-- A matching block as returned by
`SequenceMatcher.find_longest_match`: start offset in `a`, start offset in
`b`, and length. -/
structure MatchBlock where
  a : Nat
  b : Nat
  size : Nat
deriving DecidableEq

/-- `difflib.SequenceMatcher(None, a, b, autojunk=False)
.find_longest_match(0, len(a), 0, len(b))`: with no junk this returns the
longest matching block; among all maximal blocks, the one starting earliest
in `a` and, of those, earliest in `b`; `(0, 0, 0)` when nothing matches.
Scanning all start pairs in ascending order and replacing the best only on
a strictly longer run realizes exactly that tie-break. -/
def pyFindLongestMatch (a b : List Nat) : MatchBlock :=
  (List.range a.length).foldl (fun best i =>
    (List.range b.length).foldl (fun best j =>
      let k := commonRun (a.drop i) (b.drop j)
      if best.size < k then ⟨i, j, k⟩ else best) best) ⟨0, 0, 0⟩

/-- An input chunk: its id (`chunk_id`/`id`), its text
(`content`/`text`) and its optional 1-based page hint (`page`). -/
structure Chunk where
  chunkId : Nat
  content : List Nat
  page : Option Nat
deriving DecidableEq

/-- The `ChunkHighlight` dataclass. -/
structure ChunkHighlight where
  chunkId : Nat
  pageIndex : Nat
  text : List Nat
  areas : List HighlightArea
deriving DecidableEq

/-- The body of the per-chunk loop of
`LightRAGHighlighter.find_all_highlights`: returns `none` exactly when the
loop hits a `continue`. -/
def lightragProcessChunk (idx : SkeletonIndex) (doc : PDFDoc) (chunk : Chunk) :
    Option ChunkHighlight :=
  if chunk.content = [] then none
  else
    let chunkSkeleton := makeSkeletonSegment chunk.content
    if chunkSkeleton.length < 10 then none
    else
      let m := pyFindLongestMatch idx.docSkeleton chunkSkeleton
      if m.size < 15 then none
      else
        let docStart := m.a
        let docEnd := m.a + m.size
        if docStart < idx.charToWordIdx.length ∧ docEnd - 1 < idx.charToWordIdx.length then
          let startWordIdx := idx.charToWordIdx.getD docStart 0
          let endWordIdx := idx.charToWordIdx.getD (docEnd - 1) 0
          let matchedWords :=
            (idx.globalWords.drop startWordIdx).take (endWordIdx + 1 - startWordIdx)
          if matchedWords = [] then none
          else
            let merged := lightragMergeAreas (wordsToAreas doc matchedWords)
            some ⟨chunk.chunkId, primaryPageOr 0 merged, chunk.content, merged⟩
        else none

/-- `LightRAGHighlighter.find_all_highlights` over an already-opened
document (the constructor runs `_load_pdf` once; chunks that `continue`
contribute nothing to the result list). -/
def lightragFindAll (doc : PDFDoc) (chunks : List Chunk) : List ChunkHighlight :=
  chunks.filterMap (lightragProcessChunk (loadPdf doc) doc)

/-- The page index and area list of a result — the fields of a
`ChunkHighlight` that do not merely echo the input chunk. -/
def obsOf (r : ChunkHighlight) : Nat × List HighlightArea := (r.pageIndex, r.areas)

/-- The chunk-skeleton-to-geometry part of the per-chunk loop: everything
after `chunk_skeleton` has been formed depends only on the skeleton. -/
def lightragLocateObs (idx : SkeletonIndex) (doc : PDFDoc) (chunkSkeleton : List Nat) :
    Option (Nat × List HighlightArea) :=
  if chunkSkeleton.length < 10 then none
  else
    let m := pyFindLongestMatch idx.docSkeleton chunkSkeleton
    if m.size < 15 then none
    else
      let docStart := m.a
      let docEnd := m.a + m.size
      if docStart < idx.charToWordIdx.length ∧ docEnd - 1 < idx.charToWordIdx.length then
        let startWordIdx := idx.charToWordIdx.getD docStart 0
        let endWordIdx := idx.charToWordIdx.getD (docEnd - 1) 0
        let matchedWords :=
          (idx.globalWords.drop startWordIdx).take (endWordIdx + 1 - startWordIdx)
        if matchedWords = [] then none
        else
          let merged := lightragMergeAreas (wordsToAreas doc matchedWords)
          some (primaryPageOr 0 merged, merged)
      else none

/-- `re.sub(r'[\n\r\t]', ' ', text)`, codepoint by codepoint. -/
def replNlTab (c : Nat) : Nat := if c = 10 || c = 13 || c = 9 then 32 else c

/-- `re.sub(r'\s+', ' ', text)`: every maximal run of `\s` codepoints is
replaced by a single space.  The flag records whether the previous
codepoint was part of a whitespace run. -/
def collapseWsAux : Bool → List Nat → List Nat
  | _, [] => []
  | prevSp, c :: rest =>
    if isPySpace c then
      (if prevSp then [] else [32]) ++ collapseWsAux true rest
    else c :: collapseWsAux false rest

/-- `re.sub(r'\s+', ' ', text)`. -/
def collapseWs (s : List Nat) : List Nat := collapseWsAux false s

/-- Python `str.strip()`: drop `\s` codepoints from both ends. -/
def pyStrip (s : List Nat) : List Nat :=
  ((s.dropWhile (fun c => isPySpace c)).reverse.dropWhile (fun c => isPySpace c)).reverse

/-- `EnhancedPDFHighlighter._clean_text`: lowercase, replace `[\n\r\t]` by
spaces, collapse `\s+` runs to single spaces, strip.  (`if not text:
return ""` agrees with the computation on the empty string.) -/
def cleanText (s : List Nat) : List Nat :=
  pyStrip (collapseWs (List.map replNlTab (pyLowerStr s)))

/-- Python `str.split()` with no separator: split on `\s` runs, discarding
empty pieces.  The accumulator holds the current token reversed. -/
def pySplitWsAux : List Nat → List Nat → List (List Nat)
  | acc, [] => if acc = [] then [] else [acc.reverse]
  | acc, c :: rest =>
    if isPySpace c then
      (if acc = [] then [] else [acc.reverse]) ++ pySplitWsAux [] rest
    else pySplitWsAux (c :: acc) rest

/-- Python `str.split()`. -/
def pySplitWs (s : List Nat) : List (List Nat) := pySplitWsAux [] s

/-- Does `hay` start with `needle`? -/
def listStartsWith : List Nat → List Nat → Bool
  | [], _ => true
  | _ :: _, [] => false
  | a :: as, b :: bs => decide (a = b) && listStartsWith as bs

/-- Python's substring test `needle in hay` (contiguous). -/
def substrB (needle : List Nat) : List Nat → Bool
  | [] => decide (needle = [])
  | c :: rest => listStartsWith needle (c :: rest) || substrB needle rest

/-- The flexible word comparison of `EnhancedPDFHighlighter`:
`word_pdf == target or target in word_pdf or word_pdf in target`. -/
def flexMatch (wordPdf target : List Nat) : Bool :=
  decide (wordPdf = target) || substrB target wordPdf || substrB wordPdf target

/-- `" ".join(texts)`. -/
def joinSpace : List (List Nat) → List Nat
  | [] => []
  | [t] => t
  | t :: ts => t ++ 32 :: joinSpace ts

/-- The cleaned page text cached by `_load_page_data`; only its emptiness
is ever inspected. -/
def pageContent (pg : PDFPage) : List Nat :=
  cleanText (joinSpace (pg.words.map RawWord.text))

/-- Fallback word for out-of-range indexing (unreachable on the modelled
code paths, where every access is bounds-checked by the loop ranges). -/
def defaultRawWord : RawWord := ⟨0, 0, 0, 0, []⟩

/-- The inner count of the window match: for a window starting at `i`,
count the `j < len(seg)` with a flexible match between the cleaned text of
`p_words[i+j]` and `seg[j]`. -/
def windowMatchCount (pWords : List RawWord) (i : Nat) (seg : List (List Nat)) : Nat :=
  (List.range seg.length).foldl (fun cnt j =>
    if flexMatch (cleanText ((pWords.getD (i + j) defaultRawWord).text)) (seg.getD j [])
    then cnt + 1 else cnt) 0

/-- `for i in range(len(p_words) - len(seg_tokens) + 1)` with the 70%
acceptance test `match_count / len(seg_tokens) >= 0.7`, modelled as
`10 * match_count ≥ 7 * len(seg_tokens)`; returns the first accepted `i`.
(`len(p_words) - len(seg) + 1` is an empty range in Python when negative,
which `len(p_words) + 1 - len(seg)` reproduces in truncated subtraction.) -/
def findSegMatch (pWords : List RawWord) (seg : List (List Nat)) : Option Nat :=
  List.find? (fun i => decide (7 * seg.length ≤ 10 * windowMatchCount pWords i seg))
    (List.range (pWords.length + 1 - seg.length))

/-- `range(0, n, step)` for positive `step`. -/
def stepRange (n step : Nat) : List Nat :=
  (List.range n).filter (fun i => i % step = 0)

/-- The sliding segments of `EnhancedPDFHighlighter.find_all_highlights`:
`for i in range(0, len(chunk_tokens), window_size - overlap)` with
`window_size = 15`, `overlap = 10`; keep `chunk_tokens[i:i+15]` when it has
at least 3 tokens. -/
def enhancedSegments (tokens : List (List Nat)) : List (List (List Nat)) :=
  (stepRange tokens.length 5).filterMap (fun i =>
    let seg := (tokens.drop i).take 15
    if 3 ≤ seg.length then some seg else none)

/-- The `search_pages` computation: with a hint, the 0-based page
`hint - 1 if hint > 0 else 0` plus its existing neighbors (next page first,
then previous page, matching the append order); with no hint, or if the
built list is empty, all pages. -/
def enhancedSearchPages (numPages : Nat) (hintPage : Option Nat) : List Nat :=
  let base :=
    match hintPage with
    | some h =>
      let pIdx := if 0 < h then h - 1 else 0
      ([pIdx] ++ (if pIdx + 1 < numPages then [pIdx + 1] else []) ++
        (if 0 < pIdx then [pIdx - 1] else []))
    | none => []
  if base = [] then List.range numPages else base

/-- The per-segment search over `search_pages`: skip out-of-range pages and
pages with empty cleaned content; on the first page with an accepted window
at `i`, emit `(p, p_words[i+k])` for `k < len(seg)` and stop (the `break`
out of the page loop). -/
def enhancedSearchSeg (doc : PDFDoc) (searchPages : List Nat)
    (seg : List (List Nat)) : List (Nat × RawWord) :=
  match searchPages with
  | [] => []
  | p :: rest =>
    if p < doc.length then
      let pg := doc.getD p defaultPage
      if pageContent pg = [] then enhancedSearchSeg doc rest seg
      else
        match findSegMatch pg.words seg with
        | some i =>
          (List.range seg.length).map (fun k => (p, pg.words.getD (i + k) defaultRawWord))
        | none => enhancedSearchSeg doc rest seg
    else enhancedSearchSeg doc rest seg

/-- The body of the per-chunk loop of
`EnhancedPDFHighlighter.find_all_highlights`. -/
def enhancedProcessChunk (doc : PDFDoc) (chunk : Chunk) : Option ChunkHighlight :=
  if chunk.content = [] then none
  else
    let tokens := pySplitWs (cleanText chunk.content)
    if tokens = [] then none
    else
      let segs := enhancedSegments tokens
      let searchPages := enhancedSearchPages doc.length chunk.page
      let raw := segs.flatMap (enhancedSearchSeg doc searchPages)
      if raw = [] then none
      else
        let merged := enhancedMergeAreas
          (raw.map (fun pr => bboxToArea doc pr.1 pr.2.x0 pr.2.y0 pr.2.x1 pr.2.y1))
        some ⟨chunk.chunkId, primaryPageOr (searchPages.getD 0 0) merged,
          chunk.content, merged⟩

/-- `EnhancedPDFHighlighter.find_all_highlights`. -/
def enhancedFindAll (doc : PDFDoc) (chunks : List Chunk) : List ChunkHighlight :=
  chunks.filterMap (enhancedProcessChunk doc)

/-- Two-page document for the C3 witness: three words on page 0, one on
page 1. -/
def c3wDoc : PDFDoc :=
  [⟨100, 100, [⟨0, 0, 10, 10, [97, 97, 97]⟩, ⟨10, 0, 20, 10, [98, 98, 98]⟩,
    ⟨20, 0, 30, 10, [99, 99, 99]⟩]⟩, ⟨100, 100, [⟨0, 0, 10, 10, [122]⟩]⟩]

/-- Chunk for the C3 witness: the page-0 text with 1-based hint 1. -/
def c3wChunk : Chunk := ⟨0, [97, 97, 97, 32, 98, 98, 98, 32, 99, 99, 99], some 1⟩

/-- The first area of the first result of the C3 witness run. -/
def c3wArea : HighlightArea :=
  ((enhancedFindAll c3wDoc [c3wChunk]).getD 0 ⟨0, 0, [], []⟩).areas.getD 0 ⟨0, 0, 0, 0, 0⟩

/-- One-page document for the C8 scenario: three words on page 0. -/
def c8Doc : PDFDoc :=
  [⟨100, 100, [⟨0, 0, 10, 10, [97, 97, 97]⟩, ⟨10, 0, 20, 10, [98, 98, 98]⟩,
    ⟨20, 0, 30, 10, [99, 99, 99]⟩]⟩]

theorem loadWordStep_inv {st : SkeletonIndex} (h : SkeletonInv st)
    (pageIdx : Nat) (w : RawWord) : SkeletonInv (loadWordStep st pageIdx w) := by
  unfold loadWordStep
  by_cases hc : makeSkeletonSegment w.text = []
  · simpa [hc] using h
  · obtain ⟨h1, h2⟩ := h
    rw [if_neg hc]
    refine ⟨?_, ?_⟩
    · simp [h1]
    · intro i hi
      rw [List.mem_append] at hi
      simp only [List.length_append, List.length_singleton]
      rcases hi with hi | hi
      · exact Nat.lt_succ_of_lt (h2 i hi)
      · rw [List.mem_replicate] at hi
        omega

theorem loadPageWords_inv {st : SkeletonIndex} (h : SkeletonInv st)
    (pageIdx : Nat) (ws : List RawWord) : SkeletonInv (loadPageWords pageIdx st ws) := by
  induction ws generalizing st with
  | nil => exact h
  | cons w rest ih => exact ih (loadWordStep_inv h pageIdx w)

theorem loadPdfFrom_inv {st : SkeletonIndex} (h : SkeletonInv st)
    (pageIdx : Nat) (doc : PDFDoc) : SkeletonInv (loadPdfFrom pageIdx st doc) := by
  induction doc generalizing st pageIdx with
  | nil => exact h
  | cons pg rest ih => exact ih (loadPageWords_inv h pageIdx pg.words) _

theorem loadPdf_inv (doc : PDFDoc) : SkeletonInv (loadPdf doc) :=
  loadPdfFrom_inv ⟨rfl, by intro i hi; simp at hi⟩ 0 doc

theorem loadWordStep_skip {st : SkeletonIndex} {w : RawWord}
    (h : makeSkeletonSegment w.text = []) (pageIdx : Nat) :
    loadWordStep st pageIdx w = st := by
  unfold loadWordStep
  simp [h]

theorem loadPageWords_skip (pageIdx : Nat) (st : SkeletonIndex)
    {w : RawWord} (h : makeSkeletonSegment w.text = []) (ws₁ ws₂ : List RawWord) :
    loadPageWords pageIdx st (ws₁ ++ w :: ws₂) = loadPageWords pageIdx st (ws₁ ++ ws₂) := by
  induction ws₁ generalizing st with
  | nil => simp [loadPageWords, loadWordStep_skip h]
  | cons v rest ih => simp [loadPageWords, ih]

theorem loadPdfFrom_skip (st : SkeletonIndex) (n : Nat) (doc₁ doc₂ : PDFDoc)
    (pw ph : ℚ) {w : RawWord} (h : makeSkeletonSegment w.text = [])
    (ws₁ ws₂ : List RawWord) :
    loadPdfFrom n st (doc₁ ++ ⟨pw, ph, ws₁ ++ w :: ws₂⟩ :: doc₂) =
      loadPdfFrom n st (doc₁ ++ ⟨pw, ph, ws₁ ++ ws₂⟩ :: doc₂) := by
  induction doc₁ generalizing st n with
  | nil => simp [loadPdfFrom, loadPageWords_skip _ _ h]
  | cons pg rest ih => simp [loadPdfFrom, ih]

theorem areaKeyLe_total (a b : HighlightArea) : areaKeyLe a b ∨ areaKeyLe b a := by
  unfold areaKeyLe
  rcases Nat.lt_trichotomy a.pageIndex b.pageIndex with h | h | h
  · exact Or.inl (Or.inl h)
  · rcases lt_trichotomy (pyRound1 a.top) (pyRound1 b.top) with h' | h' | h'
    · exact Or.inl (Or.inr ⟨h, Or.inl h'⟩)
    · rcases le_total a.left b.left with h'' | h''
      · exact Or.inl (Or.inr ⟨h, Or.inr ⟨h', h''⟩⟩)
      · exact Or.inr (Or.inr ⟨h.symm, Or.inr ⟨h'.symm, h''⟩⟩)
    · exact Or.inr (Or.inr ⟨h.symm, Or.inl h'⟩)
  · exact Or.inr (Or.inl h)

theorem areaKeyLe_trans {a b c : HighlightArea}
    (hab : areaKeyLe a b) (hbc : areaKeyLe b c) : areaKeyLe a c := by
  unfold areaKeyLe at *
  rcases hab with h1 | ⟨h1, h1'⟩ <;> rcases hbc with h2 | ⟨h2, h2'⟩
  · exact Or.inl (h1.trans h2)
  · exact Or.inl (h2 ▸ h1)
  · exact Or.inl (h1 ▸ h2)
  · refine Or.inr ⟨h1.trans h2, ?_⟩
    rcases h1' with h3 | ⟨h3, h3'⟩ <;> rcases h2' with h4 | ⟨h4, h4'⟩
    · exact Or.inl (h3.trans h4)
    · exact Or.inl (h4 ▸ h3)
    · exact Or.inl (h3 ▸ h4)
    · exact Or.inr ⟨h3.trans h4, h3'.trans h4'⟩

theorem areaKeyLe_of_not {a b : HighlightArea} (h : ¬ areaKeyLe a b) : areaKeyLe b a :=
  (areaKeyLe_total a b).resolve_left h

theorem areaKeyLe_page {a b : HighlightArea} (h : areaKeyLe a b) :
    a.pageIndex ≤ b.pageIndex := by
  rcases h with h | ⟨h, _⟩
  · exact Nat.le_of_lt h
  · exact Nat.le_of_eq h

theorem mem_insertArea {x a : HighlightArea} {l : List HighlightArea} :
    a ∈ insertArea x l ↔ a = x ∨ a ∈ l := by
  induction l with
  | nil => simp [insertArea]
  | cons y ys ih =>
    by_cases h : areaLe x y
    · simp [insertArea, h]
    · simp only [insertArea, if_neg h, List.mem_cons, ih]
      tauto

theorem mem_sortAreas {a : HighlightArea} {l : List HighlightArea} :
    a ∈ sortAreas l ↔ a ∈ l := by
  induction l with
  | nil => simp [sortAreas]
  | cons x xs ih => simp [sortAreas, mem_insertArea, ih]

theorem sortAreas_pairwise (l : List HighlightArea) :
    (sortAreas l).Pairwise areaKeyLe := by
  induction l with
  | nil => simp [sortAreas]
  | cons x xs ih =>
    simp only [sortAreas]
    have : ∀ m : List HighlightArea, m.Pairwise areaKeyLe →
        (insertArea x m).Pairwise areaKeyLe := by
      intro m
      induction m with
      | nil => intro; simp [insertArea]
      | cons y ys ihm =>
        intro hp
        rw [List.pairwise_cons] at hp
        by_cases h : areaLe x y
        · rw [insertArea, if_pos h, List.pairwise_cons]
          have hxy : areaKeyLe x y := of_decide_eq_true h
          constructor
          · intro b hb
            rcases List.mem_cons.mp hb with rfl | hb
            · exact hxy
            · exact areaKeyLe_trans hxy (hp.1 b hb)
          · rw [List.pairwise_cons]
            exact hp
        · rw [insertArea, if_neg h, List.pairwise_cons]
          have hyx : areaKeyLe y x := areaKeyLe_of_not (fun hc => h (decide_eq_true hc))
          constructor
          · intro b hb
            rcases mem_insertArea.mp hb with rfl | hb
            · exact hyx
            · exact hp.1 b hb
          · exact ihm hp.2
    exact this (sortAreas xs) ih

theorem mergeLoop_ne_nil (canMerge : HighlightArea → HighlightArea → Bool)
    (cur : HighlightArea) (l : List HighlightArea) :
    mergeLoop canMerge cur l ≠ [] := by
  induction l generalizing cur with
  | nil => simp [mergeLoop]
  | cons nxt rest ih =>
    rw [mergeLoop]
    by_cases h : canMerge cur nxt
    · rw [if_pos h]; exact ih _
    · rw [if_neg h]; simp

theorem mergeAreasWith_ne_nil (canMerge : HighlightArea → HighlightArea → Bool)
    {areas : List HighlightArea} (h : areas ≠ []) :
    mergeAreasWith canMerge areas ≠ [] := by
  unfold mergeAreasWith
  have : sortAreas areas ≠ [] := by
    intro hc
    rcases areas with _ | ⟨a, rest⟩
    · exact h rfl
    · have : a ∈ sortAreas (a :: rest) := mem_sortAreas.mpr (List.mem_cons_self a rest)
      rw [hc] at this
      simp at this
  rcases hs : sortAreas areas with _ | ⟨a, rest⟩
  · exact absurd hs this
  · exact mergeLoop_ne_nil canMerge a rest

theorem mergeCombine_pageIndex (cur nxt : HighlightArea) :
    (mergeCombine cur nxt).pageIndex = cur.pageIndex := rfl

theorem mem_mergeLoop_page (canMerge : HighlightArea → HighlightArea → Bool)
    {cur : HighlightArea} {l : List HighlightArea} {a : HighlightArea}
    (h : a ∈ mergeLoop canMerge cur l) :
    a.pageIndex ∈ cur.pageIndex :: l.map HighlightArea.pageIndex := by
  induction l generalizing cur with
  | nil =>
    rw [mergeLoop] at h
    simp only [List.mem_singleton] at h
    simp [h]
  | cons nxt rest ih =>
    rw [mergeLoop] at h
    by_cases hc : canMerge cur nxt
    · rw [if_pos hc] at h
      have := ih h
      rw [mergeCombine_pageIndex] at this
      simp only [List.map_cons, List.mem_cons] at this ⊢
      tauto
    · rw [if_neg hc] at h
      rcases List.mem_cons.mp h with rfl | h
      · simp
      · have := ih h
        simp only [List.map_cons, List.mem_cons] at this ⊢
        tauto

theorem mem_mergeAreasWith_page (canMerge : HighlightArea → HighlightArea → Bool)
    {areas : List HighlightArea} {a : HighlightArea}
    (h : a ∈ mergeAreasWith canMerge areas) :
    ∃ b ∈ areas, a.pageIndex = b.pageIndex := by
  unfold mergeAreasWith at h
  rcases hs : sortAreas areas with _ | ⟨x, rest⟩
  · rw [hs] at h; simp at h
  · rw [hs] at h
    have hmem := mem_mergeLoop_page canMerge h
    have hsub : ∀ p ∈ x.pageIndex :: rest.map HighlightArea.pageIndex,
        ∃ b ∈ areas, p = b.pageIndex := by
      intro p hp
      rcases List.mem_cons.mp hp with rfl | hp
      · exact ⟨x, mem_sortAreas.mp (hs ▸ List.mem_cons_self x rest), rfl⟩
      · rcases List.mem_map.mp hp with ⟨b, hb, rfl⟩
        exact ⟨b, mem_sortAreas.mp (hs ▸ List.mem_cons_of_mem x hb), rfl⟩
    exact hsub _ hmem

theorem mergeCombine_inBounds {cur nxt : HighlightArea}
    (hc : AreaInBounds cur) (hn : AreaInBounds nxt) :
    AreaInBounds (mergeCombine cur nxt) := by
  obtain ⟨c1, c2, c3, c4, c5, c6⟩ := hc
  obtain ⟨n1, n2, n3, n4, n5, n6⟩ := hn
  unfold mergeCombine AreaInBounds
  refine ⟨le_min c1 n1, min_le_of_left_le c2, le_min c3 n3, min_le_of_left_le c4, ?_, ?_⟩
  · have : min cur.left nxt.left + (max (cur.left + cur.width) (nxt.left + nxt.width) -
        min cur.left nxt.left) = max (cur.left + cur.width) (nxt.left + nxt.width) := by ring
    simp only [this]
    exact max_le c5 n5
  · rcases max_choice cur.height nxt.height with h | h <;> simp only [h]
    · calc min cur.top nxt.top + cur.height ≤ cur.top + cur.height :=
            add_le_add_right (min_le_left _ _) _
        _ ≤ 100 := c6
    · calc min cur.top nxt.top + nxt.height ≤ nxt.top + nxt.height :=
            add_le_add_right (min_le_right _ _) _
        _ ≤ 100 := n6

theorem mergeLoop_inBounds (canMerge : HighlightArea → HighlightArea → Bool)
    {cur : HighlightArea} {l : List HighlightArea}
    (hcur : AreaInBounds cur) (hl : ∀ b ∈ l, AreaInBounds b) :
    ∀ a ∈ mergeLoop canMerge cur l, AreaInBounds a := by
  induction l generalizing cur with
  | nil =>
    intro a ha
    rw [mergeLoop] at ha
    simp only [List.mem_singleton] at ha
    exact ha ▸ hcur
  | cons nxt rest ih =>
    intro a ha
    rw [mergeLoop] at ha
    have hnxt : AreaInBounds nxt := hl nxt (List.mem_cons_self _ _)
    have hrest : ∀ b ∈ rest, AreaInBounds b := fun b hb => hl b (List.mem_cons_of_mem _ hb)
    by_cases hc : canMerge cur nxt
    · rw [if_pos hc] at ha
      exact ih (mergeCombine_inBounds hcur hnxt) hrest a ha
    · rw [if_neg hc] at ha
      rcases List.mem_cons.mp ha with rfl | ha
      · exact hcur
      · exact ih hnxt hrest a ha

theorem mergeAreasWith_inBounds (canMerge : HighlightArea → HighlightArea → Bool)
    {areas : List HighlightArea} (h : ∀ b ∈ areas, AreaInBounds b) :
    ∀ a ∈ mergeAreasWith canMerge areas, AreaInBounds a := by
  intro a ha
  unfold mergeAreasWith at ha
  rcases hs : sortAreas areas with _ | ⟨x, rest⟩
  · rw [hs] at ha; simp at ha
  · rw [hs] at ha
    have hall : ∀ b ∈ x :: rest, AreaInBounds b := by
      intro b hb
      exact h b (mem_sortAreas.mp (hs ▸ hb))
    exact mergeLoop_inBounds canMerge (hall x (List.mem_cons_self _ _))
      (fun b hb => hall b (List.mem_cons_of_mem _ hb)) a ha

theorem wordToArea_inBounds {doc : PDFDoc} {w : GlobalWord}
    (h : WordInPage doc w) : AreaInBounds (wordToArea doc w) := by
  obtain ⟨hw, hh, hx0, hx01, hx1, hy0, hy01, hy1⟩ := h
  unfold wordToArea bboxToArea AreaInBounds
  simp only
  set pg := doc.getD w.page defaultPage
  have hx0w : w.x0 ≤ pg.width := le_trans hx01 hx1
  have hy0h : w.y0 ≤ pg.height := le_trans hy01 hy1
  refine ⟨?_, ?_, ?_, ?_, ?_, ?_⟩
  · positivity
  · rw [div_mul_eq_mul_div, div_le_iff₀ hw]
    nlinarith
  · positivity
  · rw [div_mul_eq_mul_div, div_le_iff₀ hh]
    nlinarith
  · rw [div_mul_eq_mul_div, div_mul_eq_mul_div, div_add_div_same, div_le_iff₀ hw]
    nlinarith
  · rw [div_mul_eq_mul_div, div_mul_eq_mul_div, div_add_div_same, div_le_iff₀ hh]
    nlinarith

theorem cntIn_bumpCount (cs : List (Nat × Nat)) (p q : Nat) :
    cntIn (bumpCount cs p) q = cntIn cs q + (if q = p then 1 else 0) := by
  induction cs with
  | nil =>
    by_cases h : q = p
    · subst h
      simp [bumpCount, cntIn]
    · have h' : ¬ p = q := fun hc => h hc.symm
      simp [bumpCount, cntIn, h, h']
  | cons kv rest ih =>
    obtain ⟨k, n⟩ := kv
    by_cases hk : k = p
    · subst hk
      by_cases hq : k = q
      · subst hq
        simp [bumpCount, cntIn]
      · have hq' : ¬ q = k := fun hc => hq hc.symm
        simp [bumpCount, cntIn, hq, hq']
    · by_cases hq : k = q
      · subst hq
        simp [bumpCount, cntIn, hk]
      · simp [bumpCount, cntIn, hk, hq, ih]

theorem keys_bumpCount (cs : List (Nat × Nat)) (p : Nat) :
    (bumpCount cs p).map Prod.fst =
      if p ∈ cs.map Prod.fst then cs.map Prod.fst else cs.map Prod.fst ++ [p] := by
  induction cs with
  | nil => simp [bumpCount]
  | cons kv rest ih =>
    obtain ⟨k, n⟩ := kv
    by_cases hk : k = p
    · subst hk
      simp [bumpCount]
    · by_cases hp : p ∈ rest.map Prod.fst <;>
        simp [bumpCount, hk, hp, ih, Ne.symm hk]

theorem cntIn_foldl (l : List HighlightArea) (cs : List (Nat × Nat)) (q : Nat) :
    cntIn (l.foldl (fun cs a => bumpCount cs a.pageIndex) cs) q =
      cntIn cs q + countPage q l := by
  induction l generalizing cs with
  | nil => simp [countPage]
  | cons a rest ih =>
    rw [List.foldl_cons, ih, cntIn_bumpCount]
    unfold countPage
    by_cases h : a.pageIndex = q
    · simp [List.countP_cons, h]
      omega
    · have h' : ¬ (q = a.pageIndex) := fun hc => h hc.symm
      simp [List.countP_cons, h, h']

theorem cntIn_pageCountsOf (l : List HighlightArea) (q : Nat) :
    cntIn (pageCountsOf l) q = countPage q l := by
  have := cntIn_foldl l [] q
  simpa [pageCountsOf, cntIn] using this

theorem mem_keys_foldl (l : List HighlightArea) (cs : List (Nat × Nat)) (q : Nat) :
    q ∈ (l.foldl (fun cs a => bumpCount cs a.pageIndex) cs).map Prod.fst ↔
      q ∈ cs.map Prod.fst ∨ q ∈ l.map HighlightArea.pageIndex := by
  induction l generalizing cs with
  | nil => simp
  | cons a rest ih =>
    rw [List.foldl_cons, ih, keys_bumpCount]
    by_cases h : a.pageIndex ∈ cs.map Prod.fst
    · simp only [if_pos h, List.map_cons, List.mem_cons]
      constructor
      · tauto
      · rintro (h1 | rfl | h2)
        · tauto
        · tauto
        · tauto
    · simp only [if_neg h, List.mem_append, List.mem_singleton, List.map_cons, List.mem_cons]
      tauto

theorem mem_keys_pageCountsOf (l : List HighlightArea) (q : Nat) :
    q ∈ (pageCountsOf l).map Prod.fst ↔ q ∈ l.map HighlightArea.pageIndex := by
  have := mem_keys_foldl l [] q
  simpa [pageCountsOf] using this

theorem keys_foldl_ascending (l : List HighlightArea) (cs : List (Nat × Nat))
    (hcs : (cs.map Prod.fst).Pairwise (· < ·))
    (hle : ∀ k ∈ cs.map Prod.fst, ∀ a ∈ l, k ≤ a.pageIndex)
    (hl : (l.map HighlightArea.pageIndex).Pairwise (· ≤ ·)) :
    ((l.foldl (fun cs a => bumpCount cs a.pageIndex) cs).map Prod.fst).Pairwise (· < ·) := by
  induction l generalizing cs with
  | nil => exact hcs
  | cons a rest ih =>
    rw [List.foldl_cons]
    rw [List.map_cons, List.pairwise_cons] at hl
    apply ih
    · rw [keys_bumpCount]
      by_cases h : a.pageIndex ∈ cs.map Prod.fst
      · rwa [if_pos h]
      · rw [if_neg h]
        rw [List.pairwise_append]
        refine ⟨hcs, by simp, ?_⟩
        intro k hk p hp
        rw [List.mem_singleton] at hp
        subst hp
        have h1 : k ≤ a.pageIndex := hle k hk a (List.mem_cons_self _ _)
        have h2 : k ≠ a.pageIndex := fun hc => h (hc ▸ hk)
        omega
    · intro k hk b hb
      rw [keys_bumpCount] at hk
      by_cases h : a.pageIndex ∈ cs.map Prod.fst
      · rw [if_pos h] at hk
        exact hle k hk b (List.mem_cons_of_mem _ hb)
      · rw [if_neg h, List.mem_append, List.mem_singleton] at hk
        rcases hk with hk | rfl
        · exact hle k hk b (List.mem_cons_of_mem _ hb)
        · exact hl.1 _ (List.mem_map_of_mem _ hb)
    · exact hl.2

theorem keys_pageCountsOf_ascending {l : List HighlightArea}
    (hl : (l.map HighlightArea.pageIndex).Pairwise (· ≤ ·)) :
    ((pageCountsOf l).map Prod.fst).Pairwise (· < ·) := by
  exact keys_foldl_ascending l [] (by simp) (by simp) hl

theorem cntIn_of_mem {cs : List (Nat × Nat)} (hcs : (cs.map Prod.fst).Pairwise (· < ·))
    {kv : Nat × Nat} (h : kv ∈ cs) : cntIn cs kv.1 = kv.2 := by
  induction cs with
  | nil => simp at h
  | cons c rest ih =>
    rw [List.map_cons, List.pairwise_cons] at hcs
    rcases List.mem_cons.mp h with heq | hmem
    · subst heq
      obtain ⟨c1, c2⟩ := kv
      simp [cntIn]
    · have hne : c.1 ≠ kv.1 := by
        have := hcs.1 kv.1 (List.mem_map_of_mem _ hmem)
        omega
      obtain ⟨c1, c2⟩ := c
      rw [cntIn, if_neg hne]
      exact ih hcs.2 hmem

theorem pyMaxPair_mem (best : Nat × Nat) (rest : List (Nat × Nat)) :
    pyMaxPair best rest ∈ best :: rest := by
  induction rest generalizing best with
  | nil => simp [pyMaxPair]
  | cons kv rest ih =>
    rw [pyMaxPair]
    by_cases h : best.2 < kv.2
    · rw [if_pos h]
      rcases List.mem_cons.mp (ih kv) with heq | hmem
      · rw [heq]; simp
      · exact List.mem_cons_of_mem _ (List.mem_cons_of_mem _ hmem)
    · rw [if_neg h]
      rcases List.mem_cons.mp (ih best) with heq | hmem
      · rw [heq]; simp
      · exact List.mem_cons_of_mem _ (List.mem_cons_of_mem _ hmem)

theorem pyMaxPair_ge (best : Nat × Nat) (rest : List (Nat × Nat)) :
    ∀ kv ∈ best :: rest, kv.2 ≤ (pyMaxPair best rest).2 := by
  induction rest generalizing best with
  | nil =>
    intro kv hkv
    rcases List.mem_cons.mp hkv with heq | hmem
    · rw [heq, pyMaxPair]
    · simp at hmem
  | cons c rest ih =>
    intro kv hkv
    rw [pyMaxPair]
    by_cases h : best.2 < c.2
    · rw [if_pos h]
      rcases List.mem_cons.mp hkv with heq | hmem
      · subst heq
        exact le_trans (Nat.le_of_lt h) (ih c c (List.mem_cons_self _ _))
      · exact ih c kv hmem
    · rw [if_neg h]
      rcases List.mem_cons.mp hkv with heq | hmem
      · rw [heq]
        exact ih best best (List.mem_cons_self _ _)
      · rcases List.mem_cons.mp hmem with heq2 | hmem2
        · rw [heq2]
          exact le_trans (Nat.le_of_not_lt h) (ih best best (List.mem_cons_self _ _))
        · exact ih best kv (List.mem_cons_of_mem _ hmem2)

theorem pyMaxPair_eq_best {best : Nat × Nat} {rest : List (Nat × Nat)}
    (h : (pyMaxPair best rest).2 = best.2) : pyMaxPair best rest = best := by
  induction rest generalizing best with
  | nil => rfl
  | cons c rest ih =>
    rw [pyMaxPair] at h ⊢
    by_cases hc : best.2 < c.2
    · rw [if_pos hc] at h ⊢
      exfalso
      have := pyMaxPair_ge c rest c (List.mem_cons_self _ _)
      omega
    · rw [if_neg hc] at h ⊢
      exact ih h

theorem pyMaxPair_first {best : Nat × Nat} {rest : List (Nat × Nat)}
    (hkeys : ((best :: rest).map Prod.fst).Pairwise (· < ·)) :
    ∀ kv ∈ best :: rest, kv.2 = (pyMaxPair best rest).2 → (pyMaxPair best rest).1 ≤ kv.1 := by
  induction rest generalizing best with
  | nil =>
    intro kv hkv _
    rcases List.mem_cons.mp hkv with heq | hmem
    · rw [heq, pyMaxPair]
    · simp at hmem
  | cons c rest ih =>
    have hkeys' := hkeys
    rw [List.map_cons, List.pairwise_cons] at hkeys'
    intro kv hkv hv
    rw [pyMaxPair] at hv ⊢
    by_cases h : best.2 < c.2
    · rw [if_pos h] at hv ⊢
      rcases List.mem_cons.mp hkv with heq | hmem
      · exfalso
        subst heq
        have := pyMaxPair_ge c rest c (List.mem_cons_self _ _)
        omega
      · exact ih hkeys'.2 kv hmem hv
    · rw [if_neg h] at hv ⊢
      rcases List.mem_cons.mp hkv with heq | hmem
      · subst heq
        rw [pyMaxPair_eq_best hv.symm]
      · rcases List.mem_cons.mp hmem with heq2 | hmem2
        · rw [heq2]
          have hmax : (pyMaxPair best rest).2 = best.2 := by
            have h1 := pyMaxPair_ge best rest best (List.mem_cons_self _ _)
            have h2 : c.2 = (pyMaxPair best rest).2 := heq2 ▸ hv
            omega
          rw [pyMaxPair_eq_best hmax]
          exact Nat.le_of_lt (hkeys'.1 c.1 (by simp))
        · have hkeys2 : ((best :: rest).map Prod.fst).Pairwise (· < ·) := by
            rw [List.map_cons, List.pairwise_cons]
            refine ⟨?_, ?_⟩
            · intro b hb
              rcases List.mem_map.mp hb with ⟨x, hx, hxe⟩
              subst hxe
              exact hkeys'.1 x.1 (List.mem_map_of_mem _ (List.mem_cons_of_mem _ hx))
            · have h2 := hkeys'.2
              rw [List.map_cons, List.pairwise_cons] at h2
              exact h2.2
          exact ih hkeys2 kv (List.mem_cons_of_mem _ hmem2) hv

theorem mem_assoc_of_key_mem {cs : List (Nat × Nat)} {q : Nat}
    (h : q ∈ cs.map Prod.fst) : (q, cntIn cs q) ∈ cs := by
  induction cs with
  | nil => simp at h
  | cons c rest ih =>
    obtain ⟨k, n⟩ := c
    by_cases hk : k = q
    · subst hk
      rw [cntIn, if_pos rfl]
      exact List.mem_cons_self _ _
    · rw [cntIn, if_neg hk]
      have h' : q ∈ rest.map Prod.fst := by
        rcases List.mem_map.mp h with ⟨x, hx, hxe⟩
        rcases List.mem_cons.mp hx with heq | hmem
        · exfalso
          apply hk
          rw [heq] at hxe
          exact hxe
        · exact hxe ▸ List.mem_map_of_mem _ hmem
      exact List.mem_cons_of_mem _ (ih h')

theorem sortAreas_pages_pairwise (l : List HighlightArea) :
    ((sortAreas l).map HighlightArea.pageIndex).Pairwise (· ≤ ·) :=
  (sortAreas_pairwise l).map _ (fun _ _ h => areaKeyLe_page h)

theorem mergeLoop_pages_pairwise (canMerge : HighlightArea → HighlightArea → Bool)
    {cur : HighlightArea} {l : List HighlightArea}
    (hp : ((cur :: l).map HighlightArea.pageIndex).Pairwise (· ≤ ·)) :
    ((mergeLoop canMerge cur l).map HighlightArea.pageIndex).Pairwise (· ≤ ·) := by
  induction l generalizing cur with
  | nil => simp [mergeLoop]
  | cons nxt rest ih =>
    rw [List.map_cons, List.pairwise_cons] at hp
    rw [mergeLoop]
    by_cases hc : canMerge cur nxt
    · rw [if_pos hc]
      apply ih
      rw [List.map_cons, List.pairwise_cons]
      refine ⟨?_, ?_⟩
      · intro p hp'
        rw [mergeCombine_pageIndex]
        apply hp.1
        rw [List.map_cons]
        exact List.mem_cons_of_mem _ hp'
      · have h2 := hp.2
        rw [List.map_cons, List.pairwise_cons] at h2
        exact h2.2
    · rw [if_neg hc, List.map_cons, List.pairwise_cons]
      refine ⟨?_, ih hp.2⟩
      intro p hp'
      rcases List.mem_map.mp hp' with ⟨a, ha, rfl⟩
      have := mem_mergeLoop_page canMerge ha
      exact hp.1 a.pageIndex this

theorem mergeAreasWith_pages_pairwise (canMerge : HighlightArea → HighlightArea → Bool)
    (areas : List HighlightArea) :
    ((mergeAreasWith canMerge areas).map HighlightArea.pageIndex).Pairwise (· ≤ ·) := by
  unfold mergeAreasWith
  rcases hs : sortAreas areas with _ | ⟨x, rest⟩
  · simp
  · exact mergeLoop_pages_pairwise canMerge (hs ▸ sortAreas_pages_pairwise areas)

theorem countPage_pos_iff {q : Nat} {l : List HighlightArea} :
    0 < countPage q l ↔ q ∈ l.map HighlightArea.pageIndex := by
  unfold countPage
  rw [List.countP_pos_iff]
  constructor
  · rintro ⟨a, ha, hq⟩
    rw [decide_eq_true_eq] at hq
    exact hq ▸ List.mem_map_of_mem _ ha
  · intro h
    rcases List.mem_map.mp h with ⟨a, ha, rfl⟩
    exact ⟨a, ha, by simp⟩

/-- Full specification of the `primary_page` computation on a list of areas
whose page indices are nondecreasing (as every `_merge_areas` output is):
the chosen page attains the maximal area count, and among pages attaining
that count it is the least. -/
theorem primaryPageOr_spec (dflt : Nat) {l : List HighlightArea}
    (hl : (l.map HighlightArea.pageIndex).Pairwise (· ≤ ·)) (hne : l ≠ []) :
    (∀ q, countPage q l ≤ countPage (primaryPageOr dflt l) l) ∧
    (∀ q, countPage q l = countPage (primaryPageOr dflt l) l → primaryPageOr dflt l ≤ q) := by
  have hkeys : ((pageCountsOf l).map Prod.fst).Pairwise (· < ·) :=
    keys_pageCountsOf_ascending hl
  rcases hpc : pageCountsOf l with _ | ⟨c, rest⟩
  · exfalso
    rcases l with _ | ⟨a, l'⟩
    · exact hne rfl
    · have : a.pageIndex ∈ (pageCountsOf (a :: l')).map Prod.fst :=
        (mem_keys_pageCountsOf _ _).mpr (by simp)
      rw [hpc] at this
      simp at this
  · rw [hpc] at hkeys
    have hprim : primaryPageOr dflt l = (pyMaxPair c rest).1 := by
      unfold primaryPageOr
      rw [hpc]
    have hMmem : pyMaxPair c rest ∈ c :: rest := pyMaxPair_mem c rest
    have hMcnt : countPage (pyMaxPair c rest).1 l = (pyMaxPair c rest).2 := by
      rw [← cntIn_pageCountsOf, hpc]
      exact cntIn_of_mem hkeys hMmem
    have hkeyCnt : ∀ q, q ∈ l.map HighlightArea.pageIndex →
        (q, countPage q l) ∈ c :: rest := by
      intro q hq
      have hqk : q ∈ (pageCountsOf l).map Prod.fst := (mem_keys_pageCountsOf _ _).mpr hq
      have hmem := mem_assoc_of_key_mem (hpc ▸ hqk)
      rwa [show cntIn (c :: rest) q = countPage q l by rw [← hpc, cntIn_pageCountsOf]] at hmem
    constructor
    · intro q
      rw [hprim, hMcnt]
      by_cases hq : 0 < countPage q l
      · have hqmem := countPage_pos_iff.mp hq
        exact pyMaxPair_ge c rest _ (hkeyCnt q hqmem)
      · omega
    · intro q hq
      rw [hprim]
      rw [hprim, hMcnt] at hq
      have hMpos : 0 < countPage (pyMaxPair c rest).1 l := by
        apply countPage_pos_iff.mpr
        apply (mem_keys_pageCountsOf _ _).mp
        rw [hpc]
        exact List.mem_map_of_mem _ hMmem
      have hqpos : 0 < countPage q l := by
        rw [hq, ← hMcnt]
        exact hMpos
      have hqmem := countPage_pos_iff.mp hqpos
      exact pyMaxPair_first hkeys _ (hkeyCnt q hqmem) hq

theorem lightragProcessChunk_obs (idx : SkeletonIndex) (doc : PDFDoc) (chunk : Chunk) :
    (lightragProcessChunk idx doc chunk).map obsOf =
      lightragLocateObs idx doc (makeSkeletonSegment chunk.content) := by
  unfold lightragProcessChunk lightragLocateObs
  by_cases hc : chunk.content = []
  · rw [if_pos hc, hc]
    simp [makeSkeletonSegment, pyLowerStr, pyLowerAux]
  · rw [if_neg hc]
    by_cases h10 : (makeSkeletonSegment chunk.content).length < 10
    · rw [if_pos h10, if_pos h10]
      simp
    · rw [if_neg h10, if_neg h10]
      by_cases h15 :
          (pyFindLongestMatch idx.docSkeleton (makeSkeletonSegment chunk.content)).size < 15
      · rw [if_pos h15, if_pos h15]
        simp
      · rw [if_neg h15, if_neg h15]
        dsimp only
        split
        · split
          · simp
          · simp [obsOf]
        · simp

theorem isPySpace_eq_false_ascii {c : Nat} (h1 : 0x21 ≤ c) (h2 : c ≤ 0x7E) :
    isPySpace c = false := by
  simp only [isPySpace, Bool.or_eq_false_iff, decide_eq_false_iff_not]
  omega

theorem isPySpace_eq_false_big {c : Nat} (h : 0x3000 < c) : isPySpace c = false := by
  simp only [isPySpace, Bool.or_eq_false_iff, decide_eq_false_iff_not]
  omega

theorem isPySpace_eq_false_mid {c : Nat} (h1 : 0xA0 < c) (h2 : c < 0x1680) :
    isPySpace c = false := by
  simp only [isPySpace, Bool.or_eq_false_iff, decide_eq_false_iff_not]
  omega

theorem isPySpace_pyLowerChar (c : Nat) : isPySpace (pyLowerChar c) = isPySpace c := by
  unfold pyLowerChar
  by_cases h1 : 65 ≤ c ∧ c ≤ 90
  · rw [if_pos h1, isPySpace_eq_false_ascii (by omega) (by omega),
      isPySpace_eq_false_ascii (by omega) (by omega)]
  · rw [if_neg h1]
    by_cases h2 : 0x391 ≤ c ∧ c ≤ 0x3A9 ∧ c ≠ 0x3A2
    · rw [if_pos h2, isPySpace_eq_false_mid (by omega) (by omega),
        isPySpace_eq_false_mid (by omega) (by omega)]
    · rw [if_neg h2]
      by_cases h3 : 0xFF21 ≤ c ∧ c ≤ 0xFF3A
      · rw [if_pos h3, isPySpace_eq_false_big (by omega), isPySpace_eq_false_big (by omega)]
      · rw [if_neg h3]

/-- On a string with no capital sigma, `str.lower` is the codepoint-wise
map, whatever precedes the string. -/
theorem pyLowerAux_no_sigma :
    ∀ (s : List Nat), 0x3A3 ∉ s → ∀ (before : List Nat),
      pyLowerAux before s = List.map pyLowerChar s := by
  intro s
  induction s with
  | nil =>
    intro _ _
    rfl
  | cons c rest ih =>
    intro h before
    rw [pyLowerAux, List.map_cons]
    have hc : ¬ (c = 0x3A3) := by
      intro hcc
      apply h
      rw [hcc]
      exact List.mem_cons_self _ _
    rw [if_neg hc, ih (fun hm => h (List.mem_cons_of_mem _ hm)) (before ++ [c])]

/-- On a sigma-free string, the skeleton normalization commutes to
lowercasing after whitespace removal, because the codepoint-wise lower map
sends non-whitespace to non-whitespace. -/
theorem makeSkeletonSegment_no_sigma {s : List Nat} (h : 0x3A3 ∉ s) :
    makeSkeletonSegment s =
      List.map pyLowerChar (List.filter (fun c => !(isPySpace c)) s) := by
  unfold makeSkeletonSegment
  rw [pyLowerStr, pyLowerAux_no_sigma s h, List.filter_map]
  congr 1
  apply List.filter_congr
  intro c _
  simp only [Function.comp_apply, isPySpace_pyLowerChar]

/-- Removing spaces and newlines first does not change the result of
removing all `\s` characters. -/
theorem filter_nonspace_stable (s : List Nat) :
    List.filter (fun c => !(isPySpace c))
        (List.filter (fun c => !(c == 32 || c == 10)) s) =
      List.filter (fun c => !(isPySpace c)) s := by
  rw [List.filter_filter]
  apply List.filter_congr
  intro c _
  by_cases hsp : isPySpace c = true
  · simp [hsp]
  · have h32 : ¬ (c = 32) := by
      rintro rfl
      exact hsp (by decide)
    have h10 : ¬ (c = 10) := by
      rintro rfl
      exact hsp (by decide)
    rw [Bool.not_eq_true] at hsp
    simp [hsp, h32, h10]

theorem enhancedSearchSeg_page_mem {doc : PDFDoc} {searchPages : List Nat}
    {seg : List (List Nat)} {pr : Nat × RawWord}
    (h : pr ∈ enhancedSearchSeg doc searchPages seg) :
    pr.1 ∈ searchPages ∧ pr.1 < doc.length := by
  induction searchPages with
  | nil => rw [enhancedSearchSeg] at h; simp at h
  | cons p rest ih =>
    rw [enhancedSearchSeg] at h
    by_cases hp : p < doc.length
    · rw [if_pos hp] at h
      by_cases hc : pageContent (doc.getD p defaultPage) = []
      · rw [if_pos hc] at h
        have := ih h
        exact ⟨List.mem_cons_of_mem _ this.1, this.2⟩
      · rw [if_neg hc] at h
        rcases hm : findSegMatch (doc.getD p defaultPage).words seg with _ | i
        · rw [hm] at h
          have := ih h
          exact ⟨List.mem_cons_of_mem _ this.1, this.2⟩
        · rw [hm] at h
          rcases List.mem_map.mp h with ⟨k, _, rfl⟩
          exact ⟨List.mem_cons_self _ _, hp⟩
    · rw [if_neg hp] at h
      have := ih h
      exact ⟨List.mem_cons_of_mem _ this.1, this.2⟩

theorem enhancedSearchSeg_out_of_range {doc : PDFDoc} {searchPages : List Nat}
    (h : ∀ p ∈ searchPages, doc.length ≤ p) (seg : List (List Nat)) :
    enhancedSearchSeg doc searchPages seg = [] := by
  induction searchPages with
  | nil => rw [enhancedSearchSeg]
  | cons p rest ih =>
    rw [enhancedSearchSeg]
    have hp : ¬ p < doc.length := Nat.not_lt.mpr (h p (List.mem_cons_self _ _))
    rw [if_neg hp]
    exact ih (fun q hq => h q (List.mem_cons_of_mem _ hq))

theorem enhancedProcessChunk_some {doc : PDFDoc} {chunk : Chunk} {r : ChunkHighlight}
    (h : enhancedProcessChunk doc chunk = some r) :
    r.areas ≠ [] ∧
    (∀ a ∈ r.areas, a.pageIndex ∈ enhancedSearchPages doc.length chunk.page ∧
      a.pageIndex < doc.length) ∧
    (r.areas.map HighlightArea.pageIndex).Pairwise (· ≤ ·) ∧
    (∀ q, countPage q r.areas ≤ countPage r.pageIndex r.areas) ∧
    (∀ q, countPage q r.areas = countPage r.pageIndex r.areas → r.pageIndex ≤ q) := by
  unfold enhancedProcessChunk at h
  by_cases hc : chunk.content = []
  · rw [if_pos hc] at h; exact absurd h (by simp)
  · rw [if_neg hc] at h
    by_cases ht : pySplitWs (cleanText chunk.content) = []
    · rw [if_pos ht] at h; exact absurd h (by simp)
    · rw [if_neg ht] at h
      dsimp only at h
      split at h
      · exact absurd h (by simp)
      · rename_i hr
        rw [Option.some.injEq] at h
        subst h
        dsimp only
        have hmapne : ((enhancedSegments (pySplitWs (cleanText chunk.content))).flatMap
            (enhancedSearchSeg doc (enhancedSearchPages doc.length chunk.page))).map
            (fun pr => bboxToArea doc pr.1 pr.2.x0 pr.2.y0 pr.2.x1 pr.2.y1) ≠ [] := by
          intro hmap
          exact hr (List.map_eq_nil_iff.mp hmap)
        have hne := mergeAreasWith_ne_nil enhancedCanMerge hmapne
        have hpw := mergeAreasWith_pages_pairwise enhancedCanMerge
          (((enhancedSegments (pySplitWs (cleanText chunk.content))).flatMap
            (enhancedSearchSeg doc (enhancedSearchPages doc.length chunk.page))).map
            (fun pr => bboxToArea doc pr.1 pr.2.x0 pr.2.y0 pr.2.x1 pr.2.y1))
        have hspec := primaryPageOr_spec
          ((enhancedSearchPages doc.length chunk.page).getD 0 0) hpw hne
        refine ⟨hne, ?_, hpw, hspec.1, hspec.2⟩
        intro a ha
        rcases mem_mergeAreasWith_page enhancedCanMerge ha with ⟨b, hb, hab⟩
        rcases List.mem_map.mp hb with ⟨pr, hpr, hbe⟩
        rcases List.mem_flatMap.mp hpr with ⟨seg, _, hseg⟩
        have hm := enhancedSearchSeg_page_mem hseg
        have hpage : b.pageIndex = pr.1 := by
          rw [← hbe]
          rfl
        rw [hab, hpage]
        exact hm

theorem lightragProcessChunk_some {idx : SkeletonIndex} {doc : PDFDoc} {chunk : Chunk}
    {r : ChunkHighlight} (h : lightragProcessChunk idx doc chunk = some r) :
    r.areas ≠ [] ∧
    (∀ q, countPage q r.areas ≤ countPage r.pageIndex r.areas) ∧
    (∀ q, countPage q r.areas = countPage r.pageIndex r.areas → r.pageIndex ≤ q) := by
  unfold lightragProcessChunk at h
  by_cases hc : chunk.content = []
  · rw [if_pos hc] at h; exact absurd h (by simp)
  · rw [if_neg hc] at h
    by_cases h10 : (makeSkeletonSegment chunk.content).length < 10
    · rw [if_pos h10] at h; exact absurd h (by simp)
    · rw [if_neg h10] at h
      by_cases h15 : (pyFindLongestMatch idx.docSkeleton
          (makeSkeletonSegment chunk.content)).size < 15
      · rw [if_pos h15] at h; exact absurd h (by simp)
      · rw [if_neg h15] at h
        dsimp only at h
        split at h
        · split at h
          · exact absurd h (by simp)
          · rename_i hw
            rw [Option.some.injEq] at h
            subst h
            dsimp only
            have hmapne : wordsToAreas doc
                (List.take
                  (idx.charToWordIdx.getD
                      ((pyFindLongestMatch idx.docSkeleton (makeSkeletonSegment chunk.content)).a +
                        (pyFindLongestMatch idx.docSkeleton (makeSkeletonSegment chunk.content)).size - 1) 0 + 1 -
                    idx.charToWordIdx.getD
                      (pyFindLongestMatch idx.docSkeleton (makeSkeletonSegment chunk.content)).a 0)
                  (List.drop
                    (idx.charToWordIdx.getD
                      (pyFindLongestMatch idx.docSkeleton (makeSkeletonSegment chunk.content)).a 0)
                    idx.globalWords)) ≠ [] := by
              intro hmap
              exact hw (List.map_eq_nil_iff.mp hmap)
            have hne := mergeAreasWith_ne_nil lightragCanMerge hmapne
            have hspec := primaryPageOr_spec 0
              (mergeAreasWith_pages_pairwise lightragCanMerge _) hne
            exact ⟨hne, hspec.1, hspec.2⟩
        · exact absurd h (by simp)

/-- C4: for every chunk whose longest contiguous matching run against the
document skeleton is shorter than 15 normalized characters, the locator
rejects the chunk and it produces no highlight: the result list for that
chunk is empty. -/
theorem C4_min_length_rejection (doc : PDFDoc) (chunk : Chunk)
    (h : (pyFindLongestMatch (loadPdf doc).docSkeleton
      (makeSkeletonSegment chunk.content)).size < 15) :
    lightragFindAll doc [chunk] = [] := by
  have hnone : lightragProcessChunk (loadPdf doc) doc chunk = none := by
    unfold lightragProcessChunk
    by_cases hc : chunk.content = []
    · rw [if_pos hc]
    · rw [if_neg hc]
      by_cases h10 : (makeSkeletonSegment chunk.content).length < 10
      · rw [if_pos h10]
      · rw [if_neg h10]
        dsimp only
        rw [if_pos h]
  unfold lightragFindAll
  simp [hnone]

set_option maxRecDepth 100000 in
/-- Witness for C4: a 12-character chunk sharing no character with the
document's 16-character skeleton has longest run 0 < 15 and is omitted. -/
theorem C4_min_length_rejection_witness :
    (pyFindLongestMatch
        (loadPdf [⟨100, 100, [⟨0, 0, 50, 10,
          [97, 98, 99, 100, 101, 102, 103, 104, 105, 106, 107, 108, 109, 110, 111, 112]⟩]⟩]).docSkeleton
        (makeSkeletonSegment (List.replicate 12 113))).size < 15 ∧
    lightragFindAll
      [⟨100, 100, [⟨0, 0, 50, 10,
        [97, 98, 99, 100, 101, 102, 103, 104, 105, 106, 107, 108, 109, 110, 111, 112]⟩]⟩]
      [⟨0, List.replicate 12 113, none⟩] = [] :=
  ⟨by decide, C4_min_length_rejection _ _ (by decide)⟩

/-- C5: for every document, after skeleton construction
`len(doc_skeleton) = len(char_to_word_idx)`, every `char_to_word_idx` entry
is the index of an existing word in `global_words`, and a word whose text
normalizes to the empty string contributes nothing: deleting it from its
page leaves the whole index unchanged. -/
theorem C5_skeleton_invariant :
    (∀ doc : PDFDoc,
      (loadPdf doc).docSkeleton.length = (loadPdf doc).charToWordIdx.length) ∧
    (∀ (doc : PDFDoc) (i : Nat), i ∈ (loadPdf doc).charToWordIdx →
      i < (loadPdf doc).globalWords.length) ∧
    (∀ (doc₁ doc₂ : PDFDoc) (pw ph : ℚ) (ws₁ ws₂ : List RawWord) (w : RawWord),
      makeSkeletonSegment w.text = [] →
      loadPdf (doc₁ ++ ⟨pw, ph, ws₁ ++ w :: ws₂⟩ :: doc₂) =
        loadPdf (doc₁ ++ ⟨pw, ph, ws₁ ++ ws₂⟩ :: doc₂)) := by
  refine ⟨fun doc => (loadPdf_inv doc).1, fun doc => (loadPdf_inv doc).2, ?_⟩
  intro doc₁ doc₂ pw ph ws₁ ws₂ w h
  exact loadPdfFrom_skip _ 0 doc₁ doc₂ pw ph h ws₁ ws₂

/-- Witness for C5: a pure-whitespace word normalizes to the empty string
and its removal leaves the built index unchanged. -/
theorem C5_skeleton_invariant_witness :
    makeSkeletonSegment (RawWord.text ⟨0, 0, 1, 1, [32]⟩) = [] ∧
    loadPdf [⟨100, 100, [⟨0, 0, 1, 1, [97]⟩, ⟨0, 0, 1, 1, [32]⟩]⟩] =
      loadPdf [⟨100, 100, [⟨0, 0, 1, 1, [97]⟩]⟩] :=
  ⟨by decide,
    C5_skeleton_invariant.2.2 [] [] 100 100 [⟨0, 0, 1, 1, [97]⟩] [] ⟨0, 0, 1, 1, [32]⟩
      (by decide)⟩

/-- C10: every `ChunkHighlight` returned by `find_all_highlights` — in the
skeleton engine as well as in the sliding-window engine — carries at least
one `HighlightArea`: unmatched chunks are omitted entirely, and merging a
nonempty area list yields a nonempty list. -/
theorem C10_nonempty_areas (doc : PDFDoc) (chunks : List Chunk) (r : ChunkHighlight) :
    (r ∈ lightragFindAll doc chunks → r.areas ≠ []) ∧
    (r ∈ enhancedFindAll doc chunks → r.areas ≠ []) := by
  constructor
  · intro hr
    rcases List.mem_filterMap.mp hr with ⟨c, _, hc⟩
    exact (lightragProcessChunk_some hc).1
  · intro hr
    rcases List.mem_filterMap.mp hr with ⟨c, _, hc⟩
    exact (enhancedProcessChunk_some hc).1

theorem getD_zero_mem {α : Type} {l : List α} (h : l ≠ []) (d : α) : l.getD 0 d ∈ l := by
  rcases l with _ | ⟨x, rest⟩
  · exact absurd rfl h
  · simp [List.getD]

set_option maxRecDepth 100000 in
/-- Witness for C10: a one-word document matched by a 16-character chunk
produces one `ChunkHighlight`, and its area list is nonempty. -/
theorem C10_nonempty_areas_witness :
    ((lightragFindAll
        [⟨100, 100, [⟨0, 0, 50, 10,
          [97, 98, 99, 100, 101, 102, 103, 104, 105, 106, 107, 108, 109, 110, 111, 112]⟩]⟩]
        [⟨1, [97, 98, 99, 100, 101, 102, 103, 104, 105, 106, 107, 108, 109, 110, 111, 112],
          none⟩]).getD 0 ⟨0, 0, [], []⟩).areas ≠ [] :=
  (C10_nonempty_areas _ _ _).1
    (getD_zero_mem (by decide) _)

/-- C7: for every produced `ChunkHighlight` — in the skeleton engine and in
the sliding-window engine — the reported page index holds the greatest
number of merged areas, and on a tie the lowest such page index is
reported. -/
theorem C7_primary_page (doc : PDFDoc) (chunks : List Chunk) (r : ChunkHighlight) :
    (r ∈ lightragFindAll doc chunks →
      (∀ q, countPage q r.areas ≤ countPage r.pageIndex r.areas) ∧
      (∀ q, countPage q r.areas = countPage r.pageIndex r.areas → r.pageIndex ≤ q)) ∧
    (r ∈ enhancedFindAll doc chunks →
      (∀ q, countPage q r.areas ≤ countPage r.pageIndex r.areas) ∧
      (∀ q, countPage q r.areas = countPage r.pageIndex r.areas → r.pageIndex ≤ q)) := by
  constructor
  · intro hr
    rcases List.mem_filterMap.mp hr with ⟨c, _, hc⟩
    have h := lightragProcessChunk_some hc
    exact ⟨h.2.1, h.2.2⟩
  · intro hr
    rcases List.mem_filterMap.mp hr with ⟨c, _, hc⟩
    have h := enhancedProcessChunk_some hc
    exact ⟨h.2.2.2.1, h.2.2.2.2⟩

set_option maxRecDepth 100000 in
/-- Witness for C7: on the produced highlight of a one-word document, no
page beats the reported primary page's area count. -/
theorem C7_primary_page_witness :
    countPage 3
        ((lightragFindAll
          [⟨100, 100, [⟨0, 0, 50, 10,
            [97, 98, 99, 100, 101, 102, 103, 104, 105, 106, 107, 108, 109, 110, 111, 112]⟩]⟩]
          [⟨1, [97, 98, 99, 100, 101, 102, 103, 104, 105, 106, 107, 108, 109, 110, 111, 112],
            none⟩]).getD 0 ⟨0, 0, [], []⟩).areas ≤
      countPage
        ((lightragFindAll
          [⟨100, 100, [⟨0, 0, 50, 10,
            [97, 98, 99, 100, 101, 102, 103, 104, 105, 106, 107, 108, 109, 110, 111, 112]⟩]⟩]
          [⟨1, [97, 98, 99, 100, 101, 102, 103, 104, 105, 106, 107, 108, 109, 110, 111, 112],
            none⟩]).getD 0 ⟨0, 0, [], []⟩).pageIndex
        ((lightragFindAll
          [⟨100, 100, [⟨0, 0, 50, 10,
            [97, 98, 99, 100, 101, 102, 103, 104, 105, 106, 107, 108, 109, 110, 111, 112]⟩]⟩]
          [⟨1, [97, 98, 99, 100, 101, 102, 103, 104, 105, 106, 107, 108, 109, 110, 111, 112],
            none⟩]).getD 0 ⟨0, 0, [], []⟩).areas :=
  (((C7_primary_page _ _ _).1 (getD_zero_mem (by decide) _)).1 3)

/-- C6: whenever every matched word's bounding box lies inside its page
rectangle and the page dimensions are positive, every produced area —
including every merged area, under either merge condition — satisfies
`0 ≤ left ≤ 100`, `0 ≤ top ≤ 100`, `left + width ≤ 100` and
`top + height ≤ 100` (hence also the `≤ 100 + ε` bounds for any `ε ≥ 0`). -/
theorem C6_percentage_bounds (canMerge : HighlightArea → HighlightArea → Bool)
    (doc : PDFDoc) (ws : List GlobalWord) (h : ∀ w ∈ ws, WordInPage doc w) :
    ∀ a ∈ mergeAreasWith canMerge (wordsToAreas doc ws),
      0 ≤ a.left ∧ a.left ≤ 100 ∧ 0 ≤ a.top ∧ a.top ≤ 100 ∧
      a.left + a.width ≤ 100 ∧ a.top + a.height ≤ 100 := by
  intro a ha
  refine mergeAreasWith_inBounds canMerge ?_ a ha
  intro b hb
  rcases List.mem_map.mp hb with ⟨w, hw, hbe⟩
  exact hbe ▸ wordToArea_inBounds (h w hw)

/-- Witness for C6: a single word with box `(10, 20, 30, 40)` on a
`200 × 100` page yields an in-bounds percentage area. -/
theorem C6_percentage_bounds_witness :
    0 ≤ (wordToArea [⟨200, 100, []⟩] ⟨0, 10, 20, 30, 40, []⟩).left ∧
    (wordToArea [⟨200, 100, []⟩] ⟨0, 10, 20, 30, 40, []⟩).left ≤ 100 ∧
    0 ≤ (wordToArea [⟨200, 100, []⟩] ⟨0, 10, 20, 30, 40, []⟩).top ∧
    (wordToArea [⟨200, 100, []⟩] ⟨0, 10, 20, 30, 40, []⟩).top ≤ 100 ∧
    (wordToArea [⟨200, 100, []⟩] ⟨0, 10, 20, 30, 40, []⟩).left +
      (wordToArea [⟨200, 100, []⟩] ⟨0, 10, 20, 30, 40, []⟩).width ≤ 100 ∧
    (wordToArea [⟨200, 100, []⟩] ⟨0, 10, 20, 30, 40, []⟩).top +
      (wordToArea [⟨200, 100, []⟩] ⟨0, 10, 20, 30, 40, []⟩).height ≤ 100 :=
  C6_percentage_bounds lightragCanMerge [⟨200, 100, []⟩] [⟨0, 10, 20, 30, 40, []⟩]
    (by
      intro w hw
      rw [List.mem_singleton] at hw
      subst hw
      refine ⟨by norm_num [defaultPage], by norm_num [defaultPage], by norm_num, by norm_num,
        by norm_num [defaultPage], by norm_num, by norm_num, by norm_num [defaultPage]⟩)
    _ (by simp [mergeAreasWith, sortAreas, insertArea, mergeLoop, wordsToAreas])

set_option maxRecDepth 100000 in
/-- C9 (counterexample): the chunks `ΑΑΑΑΑΑΑΑΑΣΒΒΒΒΒ` and
`ΑΑΑΑΑΑΑΑΑΣ ΒΒΒΒΒ` differ only by one inserted space, yet against a
document containing the first text CPython's Final_Sigma rule lowers the
sigma to σ in the first chunk and to ς in the second, so the first gets a
15-character match and a highlight while the second's longest run is 9 and
it is dropped: the results differ. -/
theorem C9_counterexample :
    List.filter (fun ch => !(ch == 32 || ch == 10))
        (List.replicate 9 0x391 ++ [0x3A3] ++ List.replicate 5 0x392) =
      List.filter (fun ch => !(ch == 32 || ch == 10))
        (List.replicate 9 0x391 ++ [0x3A3, 0x20] ++ List.replicate 5 0x392) ∧
    (lightragFindAll
      [⟨100, 100, [⟨0, 0, 50, 10,
        List.replicate 9 0x391 ++ [0x3A3] ++ List.replicate 5 0x392⟩]⟩]
      [⟨0, List.replicate 9 0x391 ++ [0x3A3] ++ List.replicate 5 0x392, none⟩]).length = 1 ∧
    lightragFindAll
      [⟨100, 100, [⟨0, 0, 50, 10,
        List.replicate 9 0x391 ++ [0x3A3] ++ List.replicate 5 0x392⟩]⟩]
      [⟨1, List.replicate 9 0x391 ++ [0x3A3, 0x20] ++ List.replicate 5 0x392, none⟩] = [] ∧
    (lightragFindAll
      [⟨100, 100, [⟨0, 0, 50, 10,
        List.replicate 9 0x391 ++ [0x3A3] ++ List.replicate 5 0x392⟩]⟩]
      [⟨0, List.replicate 9 0x391 ++ [0x3A3] ++ List.replicate 5 0x392, none⟩]).map obsOf ≠
      (lightragFindAll
        [⟨100, 100, [⟨0, 0, 50, 10,
          List.replicate 9 0x391 ++ [0x3A3] ++ List.replicate 5 0x392⟩]⟩]
        [⟨1, List.replicate 9 0x391 ++ [0x3A3, 0x20] ++ List.replicate 5 0x392, none⟩]).map
        obsOf :=
  ⟨by decide, by decide, by decide, by decide⟩

/-- C9 (amended): for chunks free of the capital sigma U+03A3 — the one
codepoint `str.lower` maps context-sensitively — texts that agree after
deleting every space and newline receive the same matched span, hence
highlights with the same page index and the same area lists. -/
theorem C9_whitespace_robustness (doc : PDFDoc) (c₁ c₂ : Chunk)
    (hs₁ : 0x3A3 ∉ c₁.content) (hs₂ : 0x3A3 ∉ c₂.content)
    (h : List.filter (fun ch => !(ch == 32 || ch == 10)) c₁.content =
         List.filter (fun ch => !(ch == 32 || ch == 10)) c₂.content) :
    (lightragFindAll doc [c₁]).map obsOf = (lightragFindAll doc [c₂]).map obsOf := by
  have hskel : makeSkeletonSegment c₁.content = makeSkeletonSegment c₂.content := by
    rw [makeSkeletonSegment_no_sigma hs₁, makeSkeletonSegment_no_sigma hs₂,
      ← filter_nonspace_stable c₁.content, ← filter_nonspace_stable c₂.content, h]
  have h1 := lightragProcessChunk_obs (loadPdf doc) doc c₁
  have h2 := lightragProcessChunk_obs (loadPdf doc) doc c₂
  rw [hskel] at h1
  unfold lightragFindAll
  rcases e1 : lightragProcessChunk (loadPdf doc) doc c₁ with _ | r1 <;>
    rcases e2 : lightragProcessChunk (loadPdf doc) doc c₂ with _ | r2
  · simp [e1, e2]
  · rw [e1] at h1
    rw [e2] at h2
    rw [← h2] at h1
    simp at h1
  · rw [e1] at h1
    rw [e2] at h2
    rw [← h2] at h1
    simp at h1
  · rw [e1] at h1
    rw [e2] at h2
    rw [← h2] at h1
    simp only [Option.map_some'] at h1
    rw [Option.some.injEq] at h1
    simp [e1, e2, h1]

set_option maxRecDepth 100000 in
/-- Witness for C9: the sigma-free 16-character chunk and the same chunk
with one inserted space both match the one-word document and get identical
page indices and area lists (one highlight each). -/
theorem C9_whitespace_robustness_witness :
    (lightragFindAll
        [⟨100, 100, [⟨0, 0, 50, 10,
          [97, 98, 99, 100, 101, 102, 103, 104, 105, 106, 107, 108, 109, 110, 111, 112]⟩]⟩]
        [⟨0, [97, 98, 99, 100, 101, 102, 103, 104, 105, 106, 107, 108, 109, 110, 111, 112],
          none⟩]).map obsOf =
      (lightragFindAll
        [⟨100, 100, [⟨0, 0, 50, 10,
          [97, 98, 99, 100, 101, 102, 103, 104, 105, 106, 107, 108, 109, 110, 111, 112]⟩]⟩]
        [⟨1, [97, 98, 99, 100, 101, 102, 103, 104, 32, 105, 106, 107, 108, 109, 110, 111, 112],
          none⟩]).map obsOf :=
  C9_whitespace_robustness _
    ⟨0, [97, 98, 99, 100, 101, 102, 103, 104, 105, 106, 107, 108, 109, 110, 111, 112], none⟩
    ⟨1, [97, 98, 99, 100, 101, 102, 103, 104, 32, 105, 106, 107, 108, 109, 110, 111, 112], none⟩
    (by decide) (by decide) (by decide)

/-- C1 (counterexample): the areas `(page 0, left 0, top 0, w 5, h 1)` and
`(page 0, left 5, top 1, w 5, h 1)` satisfy the merge condition (same page,
vertical difference 1 < 1.5, horizontal gap 0 < 4), but the merged
rectangle has height `max(h₁, h₂) = 1`, not the bounding-box union height
`max(bottom) - min(top) = 2`; the merge is not the exact union. -/
theorem C1_counterexample :
    enhancedMergeAreas [⟨0, 0, 0, 5, 1⟩, ⟨0, 5, 1, 5, 1⟩] = [⟨0, 0, 0, 10, 1⟩] ∧
    max ((0:ℚ) + 1) (1 + 1) - min (0:ℚ) 1 = 2 ∧
    (⟨0, 0, 0, 10, 1⟩ : HighlightArea) ≠ ⟨0, 0, 0, 10, 2⟩ := by
  refine ⟨?_, by norm_num, by intro h; rw [HighlightArea.mk.injEq] at h; norm_num at h⟩
  norm_num [enhancedMergeAreas, mergeAreasWith, sortAreas, insertArea, areaLe, areaKeyLe,
    pyRound1, pyRoundHalfEven, mergeLoop, enhancedCanMerge, mergeCombine]

/-- C1 (amended): when the enhanced merge condition holds for a pair taken
in sort order (same page, `|Δtop| < 1.5`, horizontal gap `< 4.0`), the
merged rectangle is `left = min(left)`, `top = min(top)`,
`width = max(right) − min(left)` and `height = max(height₁, height₂)` —
the exact bounding-box union only when the tops coincide; a same-line pair
with gap 2.0 (< 4.0) merges into its exact union, and a same-line pair with
gap 10.0 does not merge. -/
theorem C1_merge_bounding_box (a b : HighlightArea)
    (hpage : a.pageIndex = b.pageIndex) (hkey : areaKeyLe a b)
    (hvert : |a.top - b.top| < 3/2) (hgap : b.left - (a.left + a.width) < 4) :
    enhancedMergeAreas [a, b] =
      [⟨a.pageIndex, min a.left b.left, min a.top b.top,
        max (a.left + a.width) (b.left + b.width) - min a.left b.left,
        max a.height b.height⟩] ∧
    enhancedMergeAreas [⟨0, 0, 0, 3, 1⟩, ⟨0, 5, 0, 4, 1⟩] = [⟨0, 0, 0, 9, 1⟩] ∧
    enhancedMergeAreas [⟨0, 0, 0, 3, 1⟩, ⟨0, 13, 0, 4, 1⟩] =
      [⟨0, 0, 0, 3, 1⟩, ⟨0, 13, 0, 4, 1⟩] := by
  refine ⟨?_, ?_, ?_⟩
  · have hle : areaLe a b = true := decide_eq_true hkey
    have hcm : enhancedCanMerge a b = true := by
      unfold enhancedCanMerge
      rw [Bool.and_eq_true, Bool.and_eq_true]
      exact ⟨⟨decide_eq_true hpage, decide_eq_true hvert⟩, decide_eq_true hgap⟩
    show mergeAreasWith enhancedCanMerge [a, b] = _
    unfold mergeAreasWith
    have hsort : sortAreas [a, b] = [a, b] := by
      unfold sortAreas sortAreas sortAreas
      rw [insertArea, insertArea, if_pos hle]
    rw [hsort]
    show mergeLoop enhancedCanMerge a [b] = _
    rw [mergeLoop.eq_def]
    simp only [if_pos hcm]
    rw [mergeLoop.eq_def]
    rfl
  · norm_num [enhancedMergeAreas, mergeAreasWith, sortAreas, insertArea, areaLe, areaKeyLe,
      pyRound1, pyRoundHalfEven, mergeLoop, enhancedCanMerge, mergeCombine]
  · norm_num [enhancedMergeAreas, mergeAreasWith, sortAreas, insertArea, areaLe, areaKeyLe,
      pyRound1, pyRoundHalfEven, mergeLoop, enhancedCanMerge, mergeCombine]

/-- Witness for C1: the same-line pair with gap 2.0 satisfies the merge
hypotheses, and its merge is computed by the amended formula. -/
theorem C1_merge_bounding_box_witness :
    enhancedMergeAreas [⟨0, 0, 0, 3, 1⟩, ⟨0, 5, 0, 4, 1⟩] =
      [⟨(HighlightArea.mk 0 0 0 3 1).pageIndex,
        min ((0:ℚ)) ((5:ℚ)), min ((0:ℚ)) ((0:ℚ)),
        max ((0:ℚ) + 3) ((5:ℚ) + 4) - min ((0:ℚ)) ((5:ℚ)),
        max ((1:ℚ)) ((1:ℚ))⟩] :=
  (C1_merge_bounding_box ⟨0, 0, 0, 3, 1⟩ ⟨0, 5, 0, 4, 1⟩ rfl
    (by
      unfold areaKeyLe
      norm_num [pyRound1, pyRoundHalfEven])
    (by norm_num) (by norm_num)).1

theorem enhancedSearchPages_hint_mem {n h q : Nat} (hpos : 0 < h)
    (hq : q ∈ enhancedSearchPages n (some h)) :
    q = h - 1 ∨ q = h ∨ q = h - 2 := by
  unfold enhancedSearchPages at hq
  dsimp only at hq
  rw [if_neg (by simp)] at hq
  rw [if_pos hpos] at hq
  rw [List.mem_append, List.mem_append] at hq
  rcases hq with (hq | hq) | hq
  · rw [List.mem_singleton] at hq
    exact Or.inl hq
  · by_cases hn : h - 1 + 1 < n
    · rw [if_pos hn, List.mem_singleton] at hq
      right; left; omega
    · rw [if_neg hn] at hq
      simp at hq
  · by_cases hp : 0 < h - 1
    · rw [if_pos hp, List.mem_singleton] at hq
      right; right; omega
    · rw [if_neg hp] at hq
      simp at hq

set_option maxRecDepth 100000 in
/-- C3 (counterexample): in a four-page document whose fragment occurs only
on page 0, the skeleton locator returns a match on page 0 even though the
chunk carries the in-range 1-based page hint 4 (which the claim says should
confine the match to 0-based pages 2–3); indeed its result is identical to
the no-hint result, because `LightRAGHighlighter.find_all_highlights` never
reads the hint. -/
theorem C3_counterexample :
    (lightragFindAll
        [⟨100, 100, [⟨0, 0, 50, 10,
           [97, 98, 99, 100, 101, 102, 103, 104, 105, 106, 107, 108, 109, 110, 111, 112]⟩]⟩,
         ⟨100, 100, [⟨0, 0, 10, 10, [122]⟩]⟩,
         ⟨100, 100, [⟨0, 0, 10, 10, [121]⟩]⟩,
         ⟨100, 100, [⟨0, 0, 10, 10, [120]⟩]⟩]
        [⟨0, [97, 98, 99, 100, 101, 102, 103, 104, 105, 106, 107, 108, 109, 110, 111, 112],
          some 4⟩]).map (fun r => r.areas.map HighlightArea.pageIndex) = [[0]] ∧
    (0 : Nat) ∉ ([2, 3] : List Nat) := by
  refine ⟨by decide, by decide⟩

/-- C3 (amended): the skeleton locator (`LightRAGHighlighter`) ignores page
hints entirely — its per-chunk result does not depend on the hint field —
while the sliding-window locator (`EnhancedPDFHighlighter`) does restrict
its search: with a 1-based hint `h ≥ 1` every produced area lies on one of
the 0-based pages `h-1`, `h`, `h-2` and inside the document. -/
theorem C3_page_hint_narrowing :
    (∀ (idx : SkeletonIndex) (doc : PDFDoc) (cid : Nat) (content : List Nat)
        (p q : Option Nat),
      lightragProcessChunk idx doc ⟨cid, content, p⟩ =
        lightragProcessChunk idx doc ⟨cid, content, q⟩) ∧
    (∀ (doc : PDFDoc) (c : Chunk) (h : Nat), c.page = some h → 0 < h →
      ∀ r ∈ enhancedFindAll doc [c], ∀ a ∈ r.areas,
        (a.pageIndex = h - 1 ∨ a.pageIndex = h ∨ a.pageIndex = h - 2) ∧
        a.pageIndex < doc.length) := by
  constructor
  · intro idx doc cid content p q
    rfl
  · intro doc c h hc hpos r hr a ha
    rcases List.mem_filterMap.mp hr with ⟨c', hc', hcc⟩
    rw [List.mem_singleton] at hc'
    subst hc'
    have hinv := (enhancedProcessChunk_some hcc).2.1 a ha
    rw [hc] at hinv
    exact ⟨enhancedSearchPages_hint_mem hpos hinv.1, hinv.2⟩

set_option maxRecDepth 100000 in
/-- Witness for C3: with 1-based hint 1 on a two-page document, the area
produced by the sliding-window engine lies on page 0 (= hint − 1) and
inside the document. -/
theorem C3_page_hint_narrowing_witness :
    (c3wArea.pageIndex = 0 ∨ c3wArea.pageIndex = 1 ∨ c3wArea.pageIndex = 0) ∧
    c3wArea.pageIndex < 2 := by
  have hne : enhancedFindAll c3wDoc [c3wChunk] ≠ [] := by decide
  have hr := getD_zero_mem hne (⟨0, 0, [], []⟩ : ChunkHighlight)
  have hsome : enhancedProcessChunk c3wDoc c3wChunk =
      some ((enhancedFindAll c3wDoc [c3wChunk]).getD 0 ⟨0, 0, [], []⟩) := by
    rcases e : enhancedProcessChunk c3wDoc c3wChunk with _ | r
    · exfalso
      apply hne
      simp [enhancedFindAll, e]
    · simp [enhancedFindAll, e]
  have hane := (enhancedProcessChunk_some hsome).1
  exact C3_page_hint_narrowing.2 c3wDoc c3wChunk 1 rfl (by decide) _ hr _
    (getD_zero_mem hane _)

set_option maxRecDepth 100000 in
/-- C8 (counterexample): on a one-page document whose text a chunk matches
exactly, supplying the out-of-range 1-based hint 99 yields no highlight at
all, while the same chunk with no hint yields one — the out-of-range hint
is not ignored and there is no fall back to a full-document search. -/
theorem C8_counterexample :
    enhancedFindAll c8Doc
      [⟨0, [97, 97, 97, 32, 98, 98, 98, 32, 99, 99, 99], some 99⟩] = [] ∧
    (enhancedFindAll c8Doc
      [⟨0, [97, 97, 97, 32, 98, 98, 98, 32, 99, 99, 99], none⟩]).length = 1 :=
  ⟨by decide, by decide⟩

/-- C8 (amended): a 1-based page hint `h` with `h ≥ numPages + 2` — so that
none of the candidate pages `h-1`, `h`, `h-2` (0-based `h-2`, `h`, `h-3`)
exists — makes the engine search only nonexistent pages: the per-page loop
skips them all and the chunk is dropped; the engine does not fall back to a
full-document search. -/
theorem C8_invalid_hint (doc : PDFDoc) (c : Chunk) (h : Nat)
    (hc : c.page = some h) (hrange : doc.length + 2 ≤ h) :
    enhancedFindAll doc [c] = [] := by
  have hsp : ∀ p ∈ enhancedSearchPages doc.length c.page, doc.length ≤ p := by
    rw [hc]
    intro p hp
    have := enhancedSearchPages_hint_mem (by omega) hp
    omega
  have hnone : enhancedProcessChunk doc c = none := by
    unfold enhancedProcessChunk
    by_cases h1 : c.content = []
    · rw [if_pos h1]
    · rw [if_neg h1]
      by_cases h2 : pySplitWs (cleanText c.content) = []
      · rw [if_pos h2]
      · rw [if_neg h2]
        dsimp only
        have hraw : (enhancedSegments (pySplitWs (cleanText c.content))).flatMap
            (enhancedSearchSeg doc (enhancedSearchPages doc.length c.page)) = [] := by
          generalize enhancedSegments (pySplitWs (cleanText c.content)) = segs
          induction segs with
          | nil => rfl
          | cons sg rest ih =>
            rw [List.flatMap_cons, ih, enhancedSearchSeg_out_of_range hsp]
            rfl
        rw [if_pos hraw]
  simp [enhancedFindAll, hnone]

/-- Witness for C8: hint 99 on the one-page document (1 + 2 ≤ 99) drops
the chunk. -/
theorem C8_invalid_hint_witness :
    enhancedFindAll c8Doc
      [⟨1, [97, 97, 97, 32, 98, 98, 98, 32, 99, 99, 99], some 99⟩] = [] :=
  C8_invalid_hint c8Doc ⟨1, [97, 97, 97, 32, 98, 98, 98, 32, 99, 99, 99], some 99⟩ 99
    rfl (by decide)
